import Mathlib

/-!
# cpp2json: the value model, the builder and the serializer of `cpp2json.h`

A shallow embedding of `src/cpp2json.h` (and of the document of `src/example.cc`).

Conventions of the embedding.

* `std::string` is a list of bytes (`Str`), a byte is a `Fin 256`.
* `std::vector<T>` is a `List T`; an `unsigned` loop index over a vector is a `Nat`
  (vectors are taken to hold fewer than `2^32` elements, so that the index never wraps).
* C integers are `Int`/`Nat` values; a conversion to `int` is written `int_cast`, the
  64-bit two's complement pattern of a value is `bits64`.
* `assert` is enabled (the header never defines `NDEBUG`): a failing `assert` ends the
  operation with a `Failure`.
* one read can leave its vector: `r.root[i + 1]` in the close of an object, made with the
  unchecked `operator[]` when the last key has no value.  That is undefined behaviour and not
  an abort: `pairLoop` and `comma_JOBJEND` end there with the mark `Failure.outOfBounds`, so
  that they are the program on every run that does not reach the read, and `pairLoopReading`
  and `comma_JOBJEND_reading` follow the program through it, the value read being a
  parameter.
* libc is modelled from the C standard in the "C" locale: `iscntrl`, and `sprintf` with the
  conversions `%d`, `%ld`, `%u`, `%lu`.  The conversion `%.15g` is a parameter `fmt`.
* the payload behind a pointer of the union is the pointed-to value: copies are deep
  (`JLEAF_t::assign`), so values never alias.
-/

/-- One `char` of a `std::string`. -/
abbrev Byte := Fin 256

/-- A `std::string`: a sequence of bytes. -/
abbrev Str := List Byte

/-- The bytes of an ASCII literal. -/
def str (s : String) : Str := s.toList.map (fun c => Fin.ofNat c.toNat)

/-- A C `double`, kept as its IEEE-754 binary64 bit pattern. -/
structure Double where
  bits : Nat
deriving DecidableEq

/-- The enum `JLEAF_t::typ_t`. -/
inductive typ_t where
  | NUMBER | DOUBLE | STRING | OBJECT | ARRAY | PAIR
  | OBJBEG | OBJEND | ARRBEG | ARREND
deriving DecidableEq

/-- The struct `JLEAF_t`: the tag together with the active member of the union
(placeholders carry `i = 0`, which nothing reads). -/
inductive JLEAF_t where
  | NUMBER (i : Int)
  | DOUBLE (d : Double)
  | STRING (s : Str)
  | OBJECT (v : List JLEAF_t)
  | ARRAY (v : List JLEAF_t)
  | PAIR (name : Str) (value : JLEAF_t)
  | OBJBEG
  | OBJEND
  | ARRBEG
  | ARREND

/-- The field `typ` of a `JLEAF_t`. -/
def JLEAF_t.typ : JLEAF_t → typ_t
  | .NUMBER _ => .NUMBER
  | .DOUBLE _ => .DOUBLE
  | .STRING _ => .STRING
  | .OBJECT _ => .OBJECT
  | .ARRAY _ => .ARRAY
  | .PAIR _ _ => .PAIR
  | .OBJBEG => .OBJBEG
  | .OBJEND => .OBJEND
  | .ARRBEG => .ARRBEG
  | .ARREND => .ARREND

/-! ## libc -/

/-- The digits of `n`, most significant first, pushed in front of `acc`
(`fuel` bounds the number of digits). -/
def digitsCore : Nat → Nat → Str → Str
  | 0, _, acc => acc
  | fuel + 1, n, acc =>
    if n < 10 then Fin.ofNat (48 + n) :: acc
    else digitsCore fuel (n / 10) (Fin.ofNat (48 + n % 10) :: acc)

/-- What `sprintf(sbuf, "%u", n)` and `sprintf(sbuf, "%lu", n)` write. -/
def sprintf_u (n : Nat) : Str := digitsCore (n + 1) n []

/-- What `sprintf(sbuf, "%d", i)` and `sprintf(sbuf, "%ld", i)` write. -/
def sprintf_d (i : Int) : Str :=
  if i < 0 then (45 : Byte) :: sprintf_u (-i).toNat else sprintf_u i.toNat

/-- The function `iscntrl` in the "C" locale: the codes `0x00..0x1f` and `0x7f` (DEL). -/
def iscntrl (ch : Byte) : Bool := ch.val < 0x20 || ch.val == 0x7f

/-- The conversion `(int) x`: reduction to 32-bit two's complement. -/
def int_cast (x : Int) : Int := (x + 2 ^ 31) % 2 ^ 32 - 2 ^ 31

/-- The 64-bit two's complement pattern of an integer. -/
def bits64 (x : Int) : Nat := (x % 2 ^ 64).toNat

/-! ## `JLEAF_t`: constructors -/

/-- The constructor `JLEAF_t(const int i)`. -/
def JLEAF_t.of_int (i : Int) : JLEAF_t := .NUMBER i

/-- The constructor `JLEAF_t(const unsigned i)`. -/
def JLEAF_t.of_unsigned (i : Nat) : JLEAF_t :=
  if i &&& 0x80000000 ≠ 0 then .STRING (sprintf_u i) else .NUMBER (int_cast i)

/-- The constructor `JLEAF_t(const int64_t i)`; the mask is `-0x80000000LL`. -/
def JLEAF_t.of_int64 (i : Int) : JLEAF_t :=
  if bits64 i &&& bits64 (-0x80000000) ≠ 0 then .STRING (sprintf_d i) else .NUMBER (int_cast i)

/-- The constructor `JLEAF_t(const uint64_t i)`; the mask `-0x80000000LL` is converted to
`uint64_t`. -/
def JLEAF_t.of_uint64 (i : Nat) : JLEAF_t :=
  if i &&& bits64 (-0x80000000) ≠ 0 then .STRING (sprintf_u i) else .NUMBER (int_cast i)

/-! ## `JLEAF_t::toString` -/

mutual
/-- The method `JLEAF_t::toString`; `fmt` is `sprintf` with `"%.15g"`. -/
def JLEAF_t.toString (fmt : Double → Str) : JLEAF_t → Str
  | .NUMBER i => sprintf_d i
  | .DOUBLE d => fmt d
  | .STRING s => (34 : Byte) :: s ++ [34]
  | .OBJECT v =>
    if v.isEmpty then str "\x7b\x7d" else JLEAF_t.expand fmt 123 v 0 [] ++ [125]
  | .ARRAY v =>
    if v.isEmpty then str "[]" else JLEAF_t.expand fmt 91 v 0 [] ++ [93]
  | .PAIR name value => ((34 : Byte) :: name ++ str "\":") ++ JLEAF_t.toString fmt value
  | .OBJBEG => str "#OBJBEG#"
  | .OBJEND => str "#OBJEND#"
  | .ARRBEG => str "#ARRBEG#"
  | .ARREND => str "#ARREND#"
/-- The loop `for (unsigned i = 0; i < v->size(); i++)` of `toString`, entered at index `i`
with the elements from `i` on still to come: `sbuf += i ? ',' : hdr`, then
`sbuf += (*v)[i].toString()`. -/
def JLEAF_t.expand (fmt : Double → Str) (hdr : Byte) : List JLEAF_t → Nat → Str → Str
  | [], _, sbuf => sbuf
  | x :: xs, i, sbuf =>
    JLEAF_t.expand fmt hdr xs (i + 1)
      ((sbuf ++ [if i ≠ 0 then 44 else hdr]) ++ JLEAF_t.toString fmt x)
end

/-! ## `JBASE_t` -/

/-- The struct `JBASE_t`: the vector `root`. -/
structure JBASE_t where
  root : List JLEAF_t

/-- How an operation of the embedding ends when it does not return: on a failing `assert` of
the program, or, for `outOfBounds`, where the program leaves defined behaviour. -/
inductive Failure where
  /-- The `assert(size)` of a close, on an empty `root`. -/
  | assertSize
  /-- No begin marker of the wanted kind: `root` is dumped to `std::cerr`, then the
  `assert` on the tag fails. -/
  | markerNotFound (dumped : List JLEAF_t)
  /-- The `assert(r.root[i].typ == JLEAF_t::STRING)` of the pairing loop. -/
  | assertString
  /-- The mark of the read `r.root[i + 1]` of the pairing loop at index `size`.  No `assert`
  guards that read and the program does not stop on it; the embedding does, because what the
  program reads there is not determined by `root`. -/
  | outOfBounds
  /-- The `assert(root.size() == 1)` of `JBASE_t::toString`. -/
  | assertSizeOne

/-- The method `JBASE_t::toString`. -/
def JBASE_t.toString (fmt : Double → Str) (b : JBASE_t) : Except Failure Str :=
  match b.root with
  | [x] => .ok (x.toString fmt)
  | _ => .error .assertSizeOne

/-- The string `"0123456789abcdef"` indexed by `escapeString`. -/
def hexdigits : Str := str "0123456789abcdef"

/-- The body of the `switch (ch)` of `escapeString`: what one byte appends to `sbuf`. -/
def escapeChar (ch : Byte) : Str :=
  if ch = 34 then str "\\\""
  else if ch = 92 then str "\\\\"
  else if ch = 47 then str "\\/"
  else if ch = 8 then str "\\b"
  else if ch = 12 then str "\\f"
  else if ch = 10 then str "\\n"
  else if ch = 13 then str "\\r"
  else if ch = 9 then str "\\t"
  else if iscntrl ch then
    (str "\\u00" ++ [hexdigits.getD (ch.val >>> 4) 0]) ++ [hexdigits.getD (ch.val &&& 0xf) 0]
  else [ch]

/-- The loop of `escapeString` over the bytes still to read, `sbuf` being the output
so far. -/
def escapeLoop : Str → Str → Str
  | [], sbuf => sbuf
  | ch :: rest, sbuf => escapeLoop rest (sbuf ++ escapeChar ch)

/-- The static method `JBASE_t::escapeString`. -/
def JBASE_t.escapeString (s : Str) : Str := escapeLoop s []

/-- The reserved word `JOBJBEG` as a builder: the constructor of `JOBJBEG_t` pushes the
marker on an empty `root`. -/
def JOBJBEG : JBASE_t := ⟨[.OBJBEG]⟩

/-- The reserved word `JOBJEND` as a builder. -/
def JOBJEND : JBASE_t := ⟨[.OBJEND]⟩

/-- The reserved word `JARRBEG` as a builder. -/
def JARRBEG : JBASE_t := ⟨[.ARRBEG]⟩

/-- The reserved word `JARREND` as a builder. -/
def JARREND : JBASE_t := ⟨[.ARREND]⟩

/-- A default-constructed `JBASE_t`. -/
def JBASE_t.empty : JBASE_t := ⟨[]⟩

/-! ## the comma operators -/

/-- `operator,(JBASE_t r, const int rhs)`. -/
def comma_int (r : JBASE_t) (rhs : Int) : JBASE_t := ⟨r.root ++ [JLEAF_t.of_int rhs]⟩

/-- `operator,(JBASE_t r, const unsigned rhs)`. -/
def comma_unsigned (r : JBASE_t) (rhs : Nat) : JBASE_t := ⟨r.root ++ [JLEAF_t.of_unsigned rhs]⟩

/-- `operator,(JBASE_t r, const uint64_t rhs)`. -/
def comma_uint64 (r : JBASE_t) (rhs : Nat) : JBASE_t := ⟨r.root ++ [JLEAF_t.of_uint64 rhs]⟩

/-- `operator,(JBASE_t r, const double rhs)`. -/
def comma_double (r : JBASE_t) (rhs : Double) : JBASE_t := ⟨r.root ++ [.DOUBLE rhs]⟩

/-- `operator,(JBASE_t r, const std::string &rhs)`. -/
def comma_string (r : JBASE_t) (rhs : Str) : JBASE_t :=
  ⟨r.root ++ [.STRING (JBASE_t.escapeString rhs)]⟩

/-- `operator,(JBASE_t r, const std::vector<int> &rhs)`; the loop pushes `JLEAF_t(rhs[i])`
for `i = 0, 1, ...` in order. -/
def comma_vector_int (r : JBASE_t) (rhs : List Int) : JBASE_t :=
  ⟨r.root ++ [.ARRAY (rhs.map JLEAF_t.of_int)]⟩

/-- `operator,(JBASE_t r, const std::vector<double> &rhs)`. -/
def comma_vector_double (r : JBASE_t) (rhs : List Double) : JBASE_t :=
  ⟨r.root ++ [.ARRAY (rhs.map JLEAF_t.DOUBLE)]⟩

/-- `operator,(JBASE_t r, const std::vector<std::string> &rhs)`, and the overload for
`std::vector<const char *>`, which has the same body. -/
def comma_vector_string (r : JBASE_t) (rhs : List Str) : JBASE_t :=
  ⟨r.root ++ [.ARRAY (rhs.map (fun s => .STRING (JBASE_t.escapeString s)))]⟩

/-- `operator,(JBASE_t r, const JBASE_t &rhs)`. -/
def comma_JBASE (r : JBASE_t) (rhs : JBASE_t) : JBASE_t := ⟨r.root ++ rhs.root⟩

/-- `operator,(JBASE_t r, const JOBJBEG_t &rhs)`. -/
def comma_JOBJBEG (r : JBASE_t) : JBASE_t := ⟨r.root ++ [.OBJBEG]⟩

/-- `operator,(JBASE_t r, const JARRBEG_t &rhs)`. -/
def comma_JARRBEG (r : JBASE_t) : JBASE_t := ⟨r.root ++ [.ARRBEG]⟩

/-- The tag of `root[i]`. -/
def typAt (root : List JLEAF_t) (i : Nat) : Option typ_t := root[i]?.map JLEAF_t.typ

/-- The loop `while (start > 0 && r.root[start].typ != t) --start;`, entered with the given
`start`; the result is the final `start`. -/
def walkback (root : List JLEAF_t) (t : typ_t) : Nat → Nat
  | 0 => 0
  | start + 1 => if typAt root (start + 1) ≠ some t then walkback root t start else start + 1

/-- The loop `for (unsigned i = start + 1; i < size; i += 2)` of the close of an object,
over the elements `root[i], root[i + 1], ...` still to read: the first must be a `STRING`
(the `assert`), and the pair of it and the second is pushed on `v`.  When the second does
not exist the program reads `r.root[size]` unchecked; this loop ends with the mark
`outOfBounds` there, and `pairLoopReading` goes on as the program does. -/
def pairLoop : List JLEAF_t → List JLEAF_t → Except Failure (List JLEAF_t)
  | [], v => .ok v
  | .STRING s :: x :: rest, v => pairLoop rest (v ++ [.PAIR s x])
  | .STRING _ :: [], _ => .error .outOfBounds
  | _ :: _, _ => .error .assertString

/-- `operator,(JBASE_t r, const JOBJEND_t &rhs)`. -/
def comma_JOBJEND (r : JBASE_t) : Except Failure JBASE_t :=
  let size := r.root.length
  if size = 0 then .error .assertSize
  else
    let start := walkback r.root .OBJBEG (size - 1)
    if typAt r.root start ≠ some .OBJBEG then .error (.markerNotFound r.root)
    else
      match pairLoop (r.root.drop (start + 1)) [] with
      | .error e => .error e
      | .ok v => .ok ⟨(r.root.set start (.OBJECT v)).take (start + 1)⟩

/-- The loop of the close of an object as the built program runs it: a last key without a
value is paired with `past`, the value that the unchecked read `r.root[i + 1]` at index
`size` finds behind the elements of the vector, and the loop ends (`i + 2 > size`). -/
def pairLoopReading (past : JLEAF_t) :
    List JLEAF_t → List JLEAF_t → Except Failure (List JLEAF_t)
  | [], v => .ok v
  | .STRING s :: x :: rest, v => pairLoopReading past rest (v ++ [.PAIR s x])
  | .STRING s :: [], v => .ok (v ++ [.PAIR s past])
  | _ :: _, _ => .error .assertString

/-- `operator,(JBASE_t r, const JOBJEND_t &rhs)` as the built program runs it, `past` being
what a read at index `size` finds. -/
def comma_JOBJEND_reading (past : JLEAF_t) (r : JBASE_t) : Except Failure JBASE_t :=
  let size := r.root.length
  if size = 0 then .error .assertSize
  else
    let start := walkback r.root .OBJBEG (size - 1)
    if typAt r.root start ≠ some .OBJBEG then .error (.markerNotFound r.root)
    else
      match pairLoopReading past (r.root.drop (start + 1)) [] with
      | .error e => .error e
      | .ok v => .ok ⟨(r.root.set start (.OBJECT v)).take (start + 1)⟩

/-- `operator,(JBASE_t r, const JARREND_t &rhs)`; the copy loop pushes `root[start + 1]`
up to `root[size - 1]` in order. -/
def comma_JARREND (r : JBASE_t) : Except Failure JBASE_t :=
  let size := r.root.length
  if size = 0 then .error .assertSize
  else
    let start := walkback r.root .ARRBEG (size - 1)
    if typAt r.root start ≠ some .ARRBEG then .error (.markerNotFound r.root)
    else .ok ⟨(r.root.set start (.ARRAY (r.root.drop (start + 1)))).take (start + 1)⟩

/-! ## chains of operators -/

/-- One right-hand side of a comma operator. -/
inductive Op where
  | int (rhs : Int)
  | unsigned (rhs : Nat)
  | uint64 (rhs : Nat)
  | double (rhs : Double)
  | string (rhs : Str)
  | vector_int (rhs : List Int)
  | vector_double (rhs : List Double)
  | vector_string (rhs : List Str)
  | blob (rhs : JBASE_t)
  | JOBJBEG
  | JOBJEND
  | JARRBEG
  | JARREND

/-- The comma operator that overload resolution selects for a right-hand side. -/
def comma (r : JBASE_t) : Op → Except Failure JBASE_t
  | .int rhs => .ok (comma_int r rhs)
  | .unsigned rhs => .ok (comma_unsigned r rhs)
  | .uint64 rhs => .ok (comma_uint64 r rhs)
  | .double rhs => .ok (comma_double r rhs)
  | .string rhs => .ok (comma_string r rhs)
  | .vector_int rhs => .ok (comma_vector_int r rhs)
  | .vector_double rhs => .ok (comma_vector_double r rhs)
  | .vector_string rhs => .ok (comma_vector_string r rhs)
  | .blob rhs => .ok (comma_JBASE r rhs)
  | .JOBJBEG => .ok (comma_JOBJBEG r)
  | .JOBJEND => comma_JOBJEND r
  | .JARRBEG => .ok (comma_JARRBEG r)
  | .JARREND => comma_JARREND r

/-- A chain `(r, x1, x2, ..., xn)`: the comma operators applied from left to right, the
chain ending at the first failure. -/
def chain : JBASE_t → List Op → Except Failure JBASE_t
  | r, [] => .ok r
  | r, x :: xs =>
    match comma r x with
    | .error e => .error e
    | .ok r1 => chain r1 xs

/-! ## the document of `example.cc` -/

/-- The vector `v` of `main`. -/
def example_v : List Str := [[97, 7, 98], str "c\"d", str "e\tf"]

/-- The double `6.2831853071`. -/
def example_d : Double := ⟨0x401921fb5442cf12⟩

/-- The double `1.7`. -/
def example_1_7 : Double := ⟨0x3ffb333333333333⟩

/-- The builder `blob` of `main`: `(JARRBEG, 1U<<31, 1.7, v, JARREND)`. -/
def example_blob : Except Failure JBASE_t :=
  chain JARRBEG [.unsigned (1 <<< 31), .double example_1_7, .vector_string example_v, .JARREND]

/-- The chain that `main` prints, given `blob`. -/
def example_doc (blob : JBASE_t) : Except Failure JBASE_t :=
  chain JOBJBEG
    [.string (str "first"), .JOBJBEG,
       .string (str "number"), .int 42,
       .string (str "vector"), .JARRBEG, .unsigned (1 <<< 31),
         .string ([65, 66, 34, 67, 68, 7, 69, 70]), .vector_string example_v, .JARREND,
     .JOBJEND,
     .string (str "second"), .JOBJBEG,
       .string (str "float"), .double example_d,
       .string (str "blob"), .blob blob,
     .JOBJEND,
     .JOBJEND]

/-- What `main` writes to `std::cout`, without the final newline. -/
def example_main (fmt : Double → Str) : Except Failure Str :=
  match example_blob with
  | .error e => .error e
  | .ok blob =>
    match example_doc blob with
    | .error e => .error e
    | .ok doc => doc.toString fmt

/-! ## reference definitions, from the words of the specification -/

/-- The lowercase hexadecimal digit of a value below 16. -/
def lowerHex (d : Nat) : Byte := if d < 10 then Fin.ofNat (48 + d) else Fin.ofNat (97 + (d - 10))

/-- A decimal digit `'0'..'9'`. -/
def isDigit (b : Byte) : Bool := 48 ≤ b.val && b.val ≤ 57

/-- Reading a run of decimal digits, `acc` being the value read so far; `none` when a byte
is not a digit. -/
def parseDigits : Str → Nat → Option Nat
  | [], acc => some acc
  | b :: bs, acc => if isDigit b then parseDigits bs (acc * 10 + (b.val - 48)) else none

/-- Reading a decimal integer text: an optional `'-'`, then at least one digit. -/
def parseDecimal : Str → Option Int
  | [] => none
  | b :: bs =>
    if b = 45 then
      if bs = [] then none else (parseDigits bs 0).map (fun (n : Nat) => -(n : Int))
    else (parseDigits (b :: bs) 0).map (fun (n : Nat) => (n : Int))

/-- A canonical run of digits: not empty, digits only, no leading zero except in `0`. -/
def canonicalDigits (ds : Str) : Bool :=
  ds.all isDigit && (ds != []) && (ds.head? != some 48 || ds == [48])

/-- A canonical decimal integer text: canonical digits, with a sign `'-'` in front only for
a negative value (so never in front of `0`). -/
def canonicalDecimal : Str → Bool
  | [] => false
  | b :: bs => if b = 45 then canonicalDigits bs && (bs != [48]) else canonicalDigits (b :: bs)

/-- The value `v` is a `STRING` whose payload is the canonical decimal text of `n`, and it
renders as that text between double quotes. -/
def QuotedDecimal (v : JLEAF_t) (n : Int) : Prop :=
  ∃ p : Str, v = .STRING p ∧ parseDecimal p = some n ∧ canonicalDecimal p = true ∧
    ∀ fmt : Double → Str, v.toString fmt = (34 : Byte) :: p ++ [34]

/-- The value `v` is the `NUMBER` `n`, and it renders as the canonical decimal text of `n`. -/
def PlainNumber (v : JLEAF_t) (n : Int) : Prop :=
  v = .NUMBER n ∧
    ∀ fmt : Double → Str,
      parseDecimal (v.toString fmt) = some n ∧ canonicalDecimal (v.toString fmt) = true

/-- The decimal text of a natural number: its base-10 digits, most significant first, `0` for
zero. -/
def decimalNat (n : Nat) : Str :=
  if n = 0 then [48] else (Nat.digits 10 n).reverse.map (fun d => Fin.ofNat (48 + d))

/-- The decimal text of an integer: a `'-'` in front of the text of the magnitude when
negative. -/
def decimalText (i : Int) : Str :=
  if i < 0 then (45 : Byte) :: decimalNat i.natAbs else decimalNat i.natAbs

/-- Texts joined by single commas. -/
def commaJoin (parts : List Str) : Str := List.intercalate [44] parts

mutual
/-- The reference renderer of the specification, for values without markers and doubles:
a number is its decimal text, a string its payload between double quotes, a pair its key
between double quotes, a colon and its value, an array and an object the renderings of their
elements joined by commas between brackets and braces. -/
def render : JLEAF_t → Str
  | .NUMBER i => decimalText i
  | .STRING s => [34] ++ s ++ [34]
  | .PAIR k v => [34] ++ k ++ [34] ++ [58] ++ render v
  | .ARRAY v => [91] ++ commaJoin (renderAll v) ++ [93]
  | .OBJECT v => [123] ++ commaJoin (renderAll v) ++ [125]
  | _ => []
/-- The reference renderings of the elements of a sequence. -/
def renderAll : List JLEAF_t → List Str
  | [] => []
  | x :: xs => render x :: renderAll xs
end

mutual
/-- A value that holds no marker and no double, at any depth. -/
def plain : JLEAF_t → Bool
  | .NUMBER _ => true
  | .STRING _ => true
  | .PAIR _ v => plain v
  | .ARRAY v => plainAll v
  | .OBJECT v => plainAll v
  | _ => false
/-- A sequence of values that are all `plain`. -/
def plainAll : List JLEAF_t → Bool
  | [] => true
  | x :: xs => plain x && plainAll xs
end

/-- The elements `String k1, v1, ..., String kn, vn` that a run of keys and values leaves in
`root`. -/
def keyValues (kvs : List (Str × JLEAF_t)) : List JLEAF_t :=
  kvs.flatMap (fun p => [.STRING p.1, p.2])

/-- The pairs `Pair(k1, v1), ..., Pair(kn, vn)` of a run of keys and values. -/
def pairsOf (kvs : List (Str × JLEAF_t)) : List JLEAF_t :=
  kvs.map (fun p => .PAIR p.1 p.2)

/-- A JSON tree: integer and string leaves, arrays of trees, objects as ordered lists of
members (key, tree). -/
inductive JTree where
  | int (i : Int)
  | str (s : Str)
  | arr (elems : List JTree)
  | obj (members : List (Str × JTree))

mutual
/-- The operators that linearise a tree: an append for a leaf; `JARRBEG`, the elements in
order, `JARREND` for an array; `JOBJBEG`, for each member its key and its tree, `JOBJEND` for
an object. -/
def linearise : JTree → List Op
  | .int i => [.int i]
  | .str s => [.string s]
  | .arr elems => [.JARRBEG] ++ lineariseElems elems ++ [.JARREND]
  | .obj members => [.JOBJBEG] ++ lineariseMembers members ++ [.JOBJEND]
/-- The operators of the elements of an array, in order. -/
def lineariseElems : List JTree → List Op
  | [] => []
  | t :: ts => linearise t ++ lineariseElems ts
/-- The operators of the members of an object, in order: the key, then the tree. -/
def lineariseMembers : List (Str × JTree) → List Op
  | [] => []
  | (k, t) :: ms => [.string k] ++ linearise t ++ lineariseMembers ms
end

mutual
/-- The compact JSON text of a tree: members and elements in order, joined by commas, no
white space; every key and string leaf is its escaped text between double quotes. -/
def jsonText : JTree → Str
  | .int i => decimalText i
  | .str s => [34] ++ JBASE_t.escapeString s ++ [34]
  | .arr elems => [91] ++ commaJoin (jsonTextElems elems) ++ [93]
  | .obj members => [123] ++ commaJoin (jsonTextMembers members) ++ [125]
/-- The texts of the elements of an array. -/
def jsonTextElems : List JTree → List Str
  | [] => []
  | t :: ts => jsonText t :: jsonTextElems ts
/-- The texts `"key":value` of the members of an object. -/
def jsonTextMembers : List (Str × JTree) → List Str
  | [] => []
  | (k, t) :: ms =>
    ([34] ++ JBASE_t.escapeString k ++ [34] ++ [58] ++ jsonText t) :: jsonTextMembers ms
end

mutual
/-- The value of a tree: `NUMBER` and `STRING` (escaped) leaves, an `ARRAY` of the values of
the elements, an `OBJECT` of one `PAIR` per member, in order. -/
def valueOf : JTree → JLEAF_t
  | .int i => .NUMBER i
  | .str s => .STRING (JBASE_t.escapeString s)
  | .arr elems => .ARRAY (valueOfElems elems)
  | .obj members => .OBJECT (pairsOf (valueOfMembers members))
/-- The values of the elements of an array. -/
def valueOfElems : List JTree → List JLEAF_t
  | [] => []
  | t :: ts => valueOf t :: valueOfElems ts
/-- The escaped keys and the values of the members of an object. -/
def valueOfMembers : List (Str × JTree) → List (Str × JLEAF_t)
  | [] => []
  | (k, t) :: ms => (JBASE_t.escapeString k, valueOf t) :: valueOfMembers ms
end

/-- The text of the member `vector` of the document of `example.cc`. -/
def example_vector_text : Str :=
  str "\"vector\":[\"2147483648\",\"AB\\\"CD\\u0007EF\",[\"a\\u0007b\",\"c\\\"d\",\"e\\tf\"]]"

/-- The text that `main` of `example.cc` is expected to print, the two doubles being
rendered by `fmt`. -/
def example_text (fmt : Double → Str) : Str :=
  str "\x7b\"first\":\x7b\"number\":42," ++ example_vector_text ++
    str "\x7d,\"second\":\x7b\"float\":" ++ fmt example_d ++
    str ",\"blob\":[\"2147483648\"," ++ fmt example_1_7 ++
    str ",[\"a\\u0007b\",\"c\\\"d\",\"e\\tf\"]]\x7d\x7d"

/-- The value that the chain of `blob` leaves in its builder. -/
def example_blob_value : JLEAF_t :=
  .ARRAY [.STRING (str "2147483648"), .DOUBLE example_1_7,
    .ARRAY [.STRING (str "a\\u0007b"), .STRING (str "c\\\"d"), .STRING (str "e\\tf")]]

/-- The value that the chain of the document leaves in its builder. -/
def example_value : JLEAF_t :=
  .OBJECT
    [.PAIR (str "first")
       (.OBJECT
         [.PAIR (str "number") (.NUMBER 42),
          .PAIR (str "vector")
            (.ARRAY [.STRING (str "2147483648"), .STRING (str "AB\\\"CD\\u0007EF"),
              .ARRAY [.STRING (str "a\\u0007b"), .STRING (str "c\\\"d"),
                .STRING (str "e\\tf")]])]),
     .PAIR (str "second")
       (.OBJECT [.PAIR (str "float") (.DOUBLE example_d), .PAIR (str "blob") example_blob_value])]

/-- A lowercase hexadecimal digit, `'0'..'9'` or `'a'..'f'`. -/
def isLowerHex (b : Byte) : Bool := (48 ≤ b.val && b.val ≤ 57) || (97 ≤ b.val && b.val ≤ 102)

/-- A token of the inside of a JSON string literal: one byte from `0x20` on that is neither
the double quote nor the backslash; or a backslash followed by one of `"` `\` `/` `b` `f`
`n` `r` `t`; or `\u00` followed by two lowercase hexadecimal digits. -/
def jsonToken : Str → Bool
  | [b] => 0x20 ≤ b.val && b != 0x22 && b != 0x5c
  | [a, b] => a == 0x5c && [0x22, 0x5c, 0x2f, 0x62, 0x66, 0x6e, 0x72, 0x74].contains b
  | [a, b, c, d, x, y] =>
    a == 0x5c && b == 0x75 && c == 0x30 && d == 0x30 && isLowerHex x && isLowerHex y
  | _ => false

/-- The value of a hexadecimal digit. -/
def hexValue (b : Byte) : Nat := if b.val ≤ 57 then b.val - 48 else b.val - 87

/-- The byte that a two-character escape `\x` stands for. -/
def unescapeShort (x : Byte) : Byte :=
  if x = 0x62 then 0x08
  else if x = 0x66 then 0x0c
  else if x = 0x6e then 0x0a
  else if x = 0x72 then 0x0d
  else if x = 0x74 then 0x09
  else x

/-- Reading one token back: the byte it stands for and the text that follows it. -/
def unescapeHead : Str → Option (Byte × Str)
  | [] => none
  | b :: rest =>
    if b ≠ 0x5c then some (b, rest)
    else
      match rest with
      | [] => none
      | x :: rest1 =>
        if x ≠ 0x75 then some (unescapeShort x, rest1)
        else
          match rest1 with
          | _ :: _ :: h1 :: h2 :: rest2 =>
            some (Fin.ofNat (hexValue h1 * 16 + hexValue h2), rest2)
          | _ => none

/-- The chain of `example.cc` with the operators of `blob` written in place of `blob`. -/
def example_doc_inline : Except Failure JBASE_t :=
  chain JOBJBEG
    [.string (str "first"), .JOBJBEG,
       .string (str "number"), .int 42,
       .string (str "vector"), .JARRBEG, .unsigned (1 <<< 31),
         .string ([65, 66, 34, 67, 68, 7, 69, 70]), .vector_string example_v, .JARREND,
     .JOBJEND,
     .string (str "second"), .JOBJBEG,
       .string (str "float"), .double example_d,
       .string (str "blob"),
         .JARRBEG, .unsigned (1 <<< 31), .double example_1_7, .vector_string example_v, .JARREND,
     .JOBJEND,
     .JOBJEND]

/-- The elements at the even offsets of a run, the key positions, are all `STRING`s. -/
def stringAtEven (tail : List JLEAF_t) : Prop :=
  ∀ (i : Nat) (x : JLEAF_t), i % 2 = 0 → tail[i]? = some x → x.typ = .STRING

/-- Some key position of a run holds an element that is not a `STRING`. -/
def keyNotString (tail : List JLEAF_t) : Prop :=
  ∃ (i : Nat) (x : JLEAF_t), i % 2 = 0 ∧ tail[i]? = some x ∧ x.typ ≠ .STRING

/-- The check of nesting with a stack of the kinds still open (`true` for an object, `false`
for an array): an open pushes its kind, a close must find its own kind on top, anything else
is skipped. -/
def nestedFrom : List Op → List Bool → Bool
  | [], stack => stack.isEmpty
  | .JOBJBEG :: ops, stack => nestedFrom ops (true :: stack)
  | .JARRBEG :: ops, stack => nestedFrom ops (false :: stack)
  | .JOBJEND :: ops, true :: stack => nestedFrom ops stack
  | .JOBJEND :: _, _ => false
  | .JARREND :: ops, false :: stack => nestedFrom ops stack
  | .JARREND :: _, _ => false
  | _ :: ops, stack => nestedFrom ops stack

/-- The opens and closes of a sequence of operators are properly nested. -/
def properlyNested (ops : List Op) : Bool := nestedFrom ops []

/-- The three ways in which a run of operators on an empty builder ends when it does not read
past the end of the sequence: every operator succeeds; or a close fails because the sequence
holds no begin marker of its kind (`assert(size)` on the empty sequence, the dump and the
`assert` on the tag otherwise); or a close of an object finds its marker and fails the
`assert` that a key position holds a `STRING`.  In the last two, `done` are the operators
that succeeded, leaving the builder `r`, and the close is the operator after them. -/
def RunOutcome (ops : List Op) : Prop :=
  (∃ b, chain JBASE_t.empty ops = .ok b) ∨
  (∃ done rest r, chain JBASE_t.empty done = .ok r ∧
    ((ops = done ++ .JOBJEND :: rest ∧ (∀ x ∈ r.root, x.typ ≠ .OBJBEG) ∧
        (chain JBASE_t.empty ops = .error .assertSize ∨
          chain JBASE_t.empty ops = .error (.markerNotFound r.root))) ∨
     (ops = done ++ .JARREND :: rest ∧ (∀ x ∈ r.root, x.typ ≠ .ARRBEG) ∧
        (chain JBASE_t.empty ops = .error .assertSize ∨
          chain JBASE_t.empty ops = .error (.markerNotFound r.root))) ∨
     (ops = done ++ .JOBJEND :: rest ∧ chain JBASE_t.empty ops = .error .assertString ∧
        ∃ pre tail, r.root = pre ++ [.OBJBEG] ++ tail ∧ (∀ x ∈ tail, x.typ ≠ .OBJBEG) ∧
          keyNotString tail)))

mutual
/-- The value is not a `PAIR` and, at every depth below it, the elements of an `OBJECT` are
`PAIR`s, while no element of an `ARRAY` and no value of a `PAIR` is a `PAIR`. -/
def pairFree : JLEAF_t → Bool
  | .PAIR _ _ => false
  | .ARRAY v => pairFreeAll v
  | .OBJECT v => pairsOnly v
  | _ => true
/-- The value is a `PAIR` whose value is `pairFree`. -/
def pairOfFree : JLEAF_t → Bool
  | .PAIR _ value => pairFree value
  | _ => false
/-- Every element of the sequence is `pairFree`: the condition on `root` and on the elements
of an `ARRAY`. -/
def pairFreeAll : List JLEAF_t → Bool
  | [] => true
  | x :: xs => pairFree x && pairFreeAll xs
/-- Every element of the sequence is a `PAIR` with a `pairFree` value: the condition on the
elements of an `OBJECT`. -/
def pairsOnly : List JLEAF_t → Bool
  | [] => true
  | x :: xs => pairOfFree x && pairsOnly xs
end

/-- The builders that the public operations reach: the empty builder and the four reserved
words, then every append of a scalar, a string or a vector, every open, every close that
returns, and every concatenation of two such builders. -/
inductive Reachable : JBASE_t → Prop where
  | empty : Reachable JBASE_t.empty
  | objbeg : Reachable JOBJBEG
  | objend : Reachable JOBJEND
  | arrbeg : Reachable JARRBEG
  | arrend : Reachable JARREND
  | int (r : JBASE_t) (rhs : Int) : Reachable r → Reachable (comma_int r rhs)
  | unsigned (r : JBASE_t) (rhs : Nat) : Reachable r → Reachable (comma_unsigned r rhs)
  | uint64 (r : JBASE_t) (rhs : Nat) : Reachable r → Reachable (comma_uint64 r rhs)
  | double (r : JBASE_t) (rhs : Double) : Reachable r → Reachable (comma_double r rhs)
  | string (r : JBASE_t) (rhs : Str) : Reachable r → Reachable (comma_string r rhs)
  | vector_int (r : JBASE_t) (rhs : List Int) : Reachable r → Reachable (comma_vector_int r rhs)
  | vector_double (r : JBASE_t) (rhs : List Double) :
    Reachable r → Reachable (comma_vector_double r rhs)
  | vector_string (r : JBASE_t) (rhs : List Str) :
    Reachable r → Reachable (comma_vector_string r rhs)
  | blob (r rhs : JBASE_t) : Reachable r → Reachable rhs → Reachable (comma_JBASE r rhs)
  | open_object (r : JBASE_t) : Reachable r → Reachable (comma_JOBJBEG r)
  | open_array (r : JBASE_t) : Reachable r → Reachable (comma_JARRBEG r)
  | close_object (r b : JBASE_t) : Reachable r → comma_JOBJEND r = .ok b → Reachable b
  | close_array (r b : JBASE_t) : Reachable r → comma_JARREND r = .ok b → Reachable b

/-! # Theorems -/

/-! ## `escapeString` -/

theorem escapeLoop_eq (s sbuf : Str) : escapeLoop s sbuf = sbuf ++ s.flatMap escapeChar := by
  induction s generalizing sbuf with
  | nil => simp [escapeLoop]
  | cons ch rest ih => simp [escapeLoop, ih]

theorem escapeString_eq_flatMap (s : Str) : JBASE_t.escapeString s = s.flatMap escapeChar := by
  simp [JBASE_t.escapeString, escapeLoop_eq]

theorem escapeString_append (s t : Str) :
    JBASE_t.escapeString (s ++ t) = JBASE_t.escapeString s ++ JBASE_t.escapeString t := by
  simp [escapeString_eq_flatMap]

theorem escapeString_single (c : Byte) : JBASE_t.escapeString [c] = escapeChar c := by
  simp [escapeString_eq_flatMap]

set_option maxRecDepth 100000 in
theorem escapeChar_control :
    ∀ c : Byte, c.val < 0x20 → c ≠ 8 → c ≠ 12 → c ≠ 10 → c ≠ 13 → c ≠ 9 →
      escapeChar c = [92, 117, 48, 48, lowerHex (c.val / 16), lowerHex (c.val % 16)] := by
  decide

set_option maxRecDepth 100000 in
theorem escapeChar_plain :
    ∀ c : Byte, 0x20 ≤ c.val → c ≠ 34 → c ≠ 92 → c ≠ 47 → c ≠ 0x7f → escapeChar c = [c] := by
  decide

/-- C6: `escapeString` works byte by byte and in order (the output for `s ++ t` is the output
for `s` followed by the output for `t`, nothing for the empty string), and the image of one
byte is: `\"` for the double quote, `\\` for the backslash, `\/` for the slash, `\b`, `\f`,
`\n`, `\r`, `\t` for backspace, form feed, newline, carriage return and tab, and `\u00XY`
with the two lowercase hexadecimal digits of `c` for every other byte `c` below `0x20`.
The bytes `a`, `0x07`, `b` give `a\u0007b`. -/
theorem C6_escapeString_table :
    JBASE_t.escapeString [] = [] ∧
    (∀ s t : Str,
      JBASE_t.escapeString (s ++ t) = JBASE_t.escapeString s ++ JBASE_t.escapeString t) ∧
    JBASE_t.escapeString [0x22] = [0x5c, 0x22] ∧
    JBASE_t.escapeString [0x5c] = [0x5c, 0x5c] ∧
    JBASE_t.escapeString [0x2f] = [0x5c, 0x2f] ∧
    JBASE_t.escapeString [0x08] = [0x5c, 0x62] ∧
    JBASE_t.escapeString [0x0c] = [0x5c, 0x66] ∧
    JBASE_t.escapeString [0x0a] = [0x5c, 0x6e] ∧
    JBASE_t.escapeString [0x0d] = [0x5c, 0x72] ∧
    JBASE_t.escapeString [0x09] = [0x5c, 0x74] ∧
    (∀ c : Byte, c.val < 0x20 → c ≠ 0x08 → c ≠ 0x0c → c ≠ 0x0a → c ≠ 0x0d → c ≠ 0x09 →
      JBASE_t.escapeString [c] =
        [0x5c, 0x75, 0x30, 0x30, lowerHex (c.val / 16), lowerHex (c.val % 16)]) ∧
    JBASE_t.escapeString [0x61, 0x07, 0x62] = str "a\\u0007b" := by
  refine ⟨rfl, escapeString_append, by decide, by decide, by decide, by decide, by decide,
    by decide, by decide, by decide, ?_, by decide⟩
  intro c h1 h2 h3 h4 h5 h6
  rw [escapeString_single]
  exact escapeChar_control c h1 h2 h3 h4 h5 h6

/-- C6, at the byte `0x1f`: its image is `\u001f`. -/
theorem C6_escapeString_table_witness :
    (0x1f : Byte).val < 0x20 ∧
      JBASE_t.escapeString [0x1f] = [0x5c, 0x75, 0x30, 0x30, lowerHex 1, lowerHex 15] :=
  ⟨by decide, C6_escapeString_table.2.2.2.2.2.2.2.2.2.2.1 0x1f
    (by decide) (by decide) (by decide) (by decide) (by decide) (by decide)⟩

/-- C7, as stated, fails at the byte `0x7f`: `iscntrl` holds for DEL, which is therefore
written as `\u007f`. -/
theorem C7_del_is_escaped :
    JBASE_t.escapeString [0x7f] = str "\\u007f" ∧ JBASE_t.escapeString [0x7f] ≠ [0x7f] := by
  decide

/-- C7, amended: every byte from `0x20` to `0xff` other than the double quote, the backslash,
the slash and DEL (`0x7f`) passes through `escapeString` unchanged; this includes every byte
from `0x80` on. -/
theorem C7_escapeString_passthrough (c : Byte) (h20 : 0x20 ≤ c.val) (hq : c ≠ 0x22)
    (hb : c ≠ 0x5c) (hs : c ≠ 0x2f) (hdel : c ≠ 0x7f) :
    JBASE_t.escapeString [c] = [c] := by
  rw [escapeString_single]
  exact escapeChar_plain c h20 hq hb hs hdel

/-- C7, amended, at the byte `0x80`. -/
theorem C7_escapeString_passthrough_witness :
    0x20 ≤ (0x80 : Byte).val ∧ JBASE_t.escapeString [0x80] = [0x80] :=
  ⟨by decide,
    C7_escapeString_passthrough 0x80 (by decide) (by decide) (by decide) (by decide)
      (by decide)⟩

/-! ## bit masks -/

theorem testBit_mask (lo w i : Nat) :
    Nat.testBit ((2 ^ w - 1) <<< lo) i = (decide (lo ≤ i) && decide (i - lo < w)) := by
  rw [Nat.testBit_shiftLeft, Nat.testBit_two_pow_sub_one]

theorem and_mask_eq_zero_iff (lo w n : Nat) (h : n < 2 ^ (lo + w)) :
    n &&& ((2 ^ w - 1) <<< lo) = 0 ↔ n < 2 ^ lo := by
  constructor
  · intro h0
    by_contra hge
    obtain ⟨i, hi, hbit⟩ := Nat.ge_two_pow_implies_high_bit_true (Nat.le_of_not_lt hge)
    have hi2 : i < lo + w := by
      by_contra hcon
      have h1 := Nat.testBit_implies_ge hbit
      have h2 : 2 ^ (lo + w) ≤ 2 ^ i := Nat.pow_le_pow_right (by decide) (Nat.le_of_not_lt hcon)
      omega
    have h3 : Nat.testBit (n &&& ((2 ^ w - 1) <<< lo)) i = true := by
      rw [Nat.testBit_and, testBit_mask, hbit]
      have : i - lo < w := by omega
      simp [hi, this]
    rw [h0] at h3
    simp at h3
  · intro hlt
    apply Nat.eq_of_testBit_eq
    intro i
    rw [Nat.testBit_and, testBit_mask, Nat.zero_testBit]
    by_cases hi : lo ≤ i
    · have h2 : 2 ^ lo ≤ 2 ^ i := Nat.pow_le_pow_right (by decide) hi
      rw [Nat.testBit_lt_two_pow (by omega)]
      simp
    · simp [hi]

theorem and_0x80000000 (n : Nat) (h : n < 2 ^ 32) : n &&& 0x80000000 = 0 ↔ n < 2 ^ 31 :=
  and_mask_eq_zero_iff 31 1 n h

theorem and_mask64 (n : Nat) (h : n < 2 ^ 64) : n &&& 0xFFFFFFFF80000000 = 0 ↔ n < 2 ^ 31 :=
  and_mask_eq_zero_iff 31 33 n h

/-! ## `sprintf` -/

theorem digitsCore_acc (fuel n : Nat) (acc : Str) :
    digitsCore fuel n acc = digitsCore fuel n [] ++ acc := by
  induction fuel generalizing n acc with
  | zero => simp [digitsCore]
  | succ fuel ih =>
    unfold digitsCore
    split
    · simp
    · rw [ih, ih (n / 10) [_]]
      simp

theorem parseDigits_append (xs ys : Str) (a : Nat) :
    parseDigits (xs ++ ys) a = (parseDigits xs a).bind (parseDigits ys) := by
  induction xs generalizing a with
  | nil => simp [parseDigits]
  | cons b bs ih =>
    simp only [List.cons_append, parseDigits]
    split
    · exact ih _
    · rfl

theorem digit_val (d : Nat) (h : d < 10) : (Fin.ofNat (48 + d) : Byte).val = 48 + d := by
  simp [Fin.ofNat]
  omega

theorem isDigit_digit (d : Nat) (h : d < 10) : isDigit (Fin.ofNat (48 + d)) = true := by
  simp only [isDigit, digit_val d h]
  simp
  omega

/-- The digits written for `n`: they read back as `n`, they are digits, there is at least one,
and the first is `0` only for `n = 0`. -/
theorem digitsCore_spec (fuel n : Nat) (h : n < fuel) :
    parseDigits (digitsCore fuel n []) 0 = some n ∧
    (digitsCore fuel n []).all isDigit = true ∧
    ∃ b bs, digitsCore fuel n [] = b :: bs ∧ (b = 48 → n = 0 ∧ bs = []) := by
  induction fuel generalizing n with
  | zero => omega
  | succ fuel ih =>
    unfold digitsCore
    by_cases h10 : n < 10
    · rw [if_pos h10]
      refine ⟨?_, ?_, _, _, rfl, ?_⟩
      · simp [parseDigits, isDigit_digit n h10, digit_val n h10]
      · simp [isDigit_digit n h10]
      · intro hb
        have h1 := congrArg Fin.val hb
        rw [digit_val n h10] at h1
        have h2 : (48 : Byte).val = 48 := rfl
        rw [h2] at h1
        exact ⟨by omega, rfl⟩
    · rw [if_neg h10, digitsCore_acc]
      have hlt : n / 10 < fuel := by omega
      have hmod : n % 10 < 10 := Nat.mod_lt _ (by decide)
      obtain ⟨hp, hall, b, bs, hb, hz⟩ := ih (n / 10) hlt
      refine ⟨?_, ?_, b, bs ++ [Fin.ofNat (48 + n % 10)], ?_, ?_⟩
      · rw [parseDigits_append, hp]
        simp [parseDigits, isDigit_digit _ hmod, digit_val _ hmod]
        omega
      · rw [List.all_append, hall]
        simp [isDigit_digit _ hmod]
      · rw [hb]; rfl
      · intro hb48
        have := (hz hb48).1
        omega

theorem sprintf_u_parse (n : Nat) : parseDigits (sprintf_u n) 0 = some n :=
  (digitsCore_spec (n + 1) n (Nat.lt_succ_self n)).1

theorem sprintf_u_canonical (n : Nat) : canonicalDigits (sprintf_u n) = true := by
  obtain ⟨_, hall, b, bs, hb, hz⟩ := digitsCore_spec (n + 1) n (Nat.lt_succ_self n)
  unfold canonicalDigits sprintf_u
  rw [hall, hb]
  by_cases h48 : b = 48
  · obtain ⟨_, hbs⟩ := hz h48
    simp [h48, hbs]
  · simp [h48]

theorem sprintf_u_cons (n : Nat) :
    ∃ b bs, sprintf_u n = b :: bs ∧ isDigit b = true ∧ (b = 48 → n = 0 ∧ bs = []) := by
  obtain ⟨_, hall, b, bs, hb, hz⟩ := digitsCore_spec (n + 1) n (Nat.lt_succ_self n)
  refine ⟨b, bs, hb, ?_, hz⟩
  rw [hb] at hall
  simp at hall
  exact hall.1

theorem isDigit_ne_minus (b : Byte) (h : isDigit b = true) : b ≠ 45 := by
  intro hb
  rw [hb] at h
  exact absurd h (by decide)

theorem sprintf_d_parse (i : Int) : parseDecimal (sprintf_d i) = some i := by
  unfold sprintf_d
  by_cases hneg : i < 0
  · rw [if_pos hneg]
    obtain ⟨b, bs, hb, _, _⟩ := sprintf_u_cons (-i).toNat
    have hne : sprintf_u (-i).toNat ≠ [] := by rw [hb]; simp
    simp only [parseDecimal, if_true, if_neg hne, sprintf_u_parse, Option.map_some']
    congr 1
    omega
  · rw [if_neg hneg]
    obtain ⟨b, bs, hb, hd, _⟩ := sprintf_u_cons i.toNat
    have hp := sprintf_u_parse i.toNat
    rw [hb] at hp ⊢
    simp only [parseDecimal, if_neg (isDigit_ne_minus b hd), hp, Option.map_some']
    congr 1
    omega

theorem sprintf_d_canonical (i : Int) : canonicalDecimal (sprintf_d i) = true := by
  unfold sprintf_d
  by_cases hneg : i < 0
  · rw [if_pos hneg]
    obtain ⟨b, bs, hb, _, hz⟩ := sprintf_u_cons (-i).toNat
    have hc := sprintf_u_canonical (-i).toNat
    have hne : sprintf_u (-i).toNat ≠ [48] := by
      rw [hb]
      intro h
      have h1 : b = 48 := by simpa using (List.cons.inj h).1
      have := (hz h1).1
      omega
    simp [canonicalDecimal, hc, hne]
  · rw [if_neg hneg]
    obtain ⟨b, bs, hb, hd, _⟩ := sprintf_u_cons i.toNat
    have hc := sprintf_u_canonical i.toNat
    rw [hb] at hc ⊢
    simp only [canonicalDecimal, if_neg (isDigit_ne_minus b hd), hc]

theorem sprintf_u_eq_d (n : Nat) : sprintf_u n = sprintf_d (n : Int) := by
  unfold sprintf_d
  rw [if_neg (by omega)]
  simp

/-! ## the integer constructors -/

theorem bits64_mask : bits64 (-0x80000000) = 0xFFFFFFFF80000000 := by decide

theorem bits64_lt (i : Int) : bits64 i < 2 ^ 64 := by
  unfold bits64
  omega

theorem int_cast_id (i : Int) (lo : -2 ^ 31 ≤ i) (hi : i < 2 ^ 31) : int_cast i = i := by
  unfold int_cast
  omega

theorem quotedDecimal_d (i : Int) : QuotedDecimal (.STRING (sprintf_d i)) i :=
  ⟨_, rfl, sprintf_d_parse i, sprintf_d_canonical i, fun _ => by simp [JLEAF_t.toString]⟩

theorem quotedDecimal_u (n : Nat) : QuotedDecimal (.STRING (sprintf_u n)) n := by
  rw [sprintf_u_eq_d]
  exact quotedDecimal_d _

theorem plainNumber (i : Int) : PlainNumber (.NUMBER i) i :=
  ⟨rfl, fun _ => by simp [JLEAF_t.toString, sprintf_d_parse, sprintf_d_canonical]⟩

theorem of_unsigned_eq (n : Nat) (h : n < 2 ^ 32) :
    JLEAF_t.of_unsigned n = if n < 2 ^ 31 then .NUMBER n else .STRING (sprintf_u n) := by
  unfold JLEAF_t.of_unsigned
  have hm := and_0x80000000 n h
  by_cases hlt : n < 2 ^ 31
  · rw [if_neg (by simpa using hm.2 hlt), if_pos hlt, int_cast_id] <;> omega
  · rw [if_pos (fun h0 => hlt (hm.1 h0)), if_neg hlt]

theorem of_uint64_eq (n : Nat) (h : n < 2 ^ 64) :
    JLEAF_t.of_uint64 n = if n < 2 ^ 31 then .NUMBER n else .STRING (sprintf_u n) := by
  unfold JLEAF_t.of_uint64
  rw [bits64_mask]
  have hm := and_mask64 n h
  by_cases hlt : n < 2 ^ 31
  · rw [if_neg (by simpa using hm.2 hlt), if_pos hlt, int_cast_id] <;> omega
  · rw [if_pos (fun h0 => hlt (hm.1 h0)), if_neg hlt]

theorem of_int64_eq (i : Int) (lo : -2 ^ 63 ≤ i) (hi : i < 2 ^ 63) :
    JLEAF_t.of_int64 i =
      if 0 ≤ i ∧ i < 2 ^ 31 then .NUMBER i else .STRING (sprintf_d i) := by
  unfold JLEAF_t.of_int64
  rw [bits64_mask]
  have hm := and_mask64 (bits64 i) (bits64_lt i)
  have hb : bits64 i < 2 ^ 31 ↔ (0 ≤ i ∧ i < 2 ^ 31) := by
    unfold bits64
    omega
  by_cases hlt : 0 ≤ i ∧ i < 2 ^ 31
  · rw [if_neg (by simpa using hm.2 (hb.2 hlt)), if_pos hlt, int_cast_id] <;> omega
  · rw [if_pos (fun h0 => hlt (hb.1 (hm.1 h0))), if_neg hlt]

/-- C4, the failing input: the `int64_t` constructor turns `-1`, which lies in the 32-bit
signed range, into the `STRING` `-1`, rendered `"-1"` with the quotes, where the `int`
constructor gives the `NUMBER` `-1`, rendered `-1`. -/
theorem C4_int64_negative_is_string :
    JLEAF_t.of_int64 (-1) = .STRING (str "-1") ∧
    (∀ fmt : Double → Str, (JLEAF_t.of_int64 (-1)).toString fmt = str "\"-1\"") ∧
    JLEAF_t.of_int (-1) = .NUMBER (-1) ∧
    (∀ fmt : Double → Str, (JLEAF_t.of_int (-1)).toString fmt = str "-1") :=
  ⟨rfl, fun _ => rfl, rfl, fun _ => rfl⟩

/-- C5: an integer outside `[-2^31, 2^31-1]` given as an `unsigned` (`2^31 <= n < 2^32`), as
an `int64_t` or as a `uint64_t` becomes a `STRING` whose payload is the canonical decimal
text of the integer (it reads back as the integer, has no leading zero, and has a `'-'` only
when negative), and `toString` returns that text between double quotes.  The unsigned
`1 << 31` renders as `"2147483648"`, quotes included. -/
theorem C5_out_of_range_is_string :
    (∀ n : Nat, 2 ^ 31 ≤ n → n < 2 ^ 32 → QuotedDecimal (JLEAF_t.of_unsigned n) n) ∧
    (∀ i : Int, -2 ^ 63 ≤ i → i < 2 ^ 63 → (i < -2 ^ 31 ∨ 2 ^ 31 ≤ i) →
      QuotedDecimal (JLEAF_t.of_int64 i) i) ∧
    (∀ n : Nat, 2 ^ 31 ≤ n → n < 2 ^ 64 → QuotedDecimal (JLEAF_t.of_uint64 n) n) ∧
    (∀ fmt : Double → Str,
      (JLEAF_t.of_unsigned (1 <<< 31)).toString fmt = str "\"2147483648\"") := by
  refine ⟨?_, ?_, ?_, fun _ => rfl⟩
  · intro n h1 h2
    rw [of_unsigned_eq n h2, if_neg (by omega)]
    exact quotedDecimal_u n
  · intro i lo hi h
    rw [of_int64_eq i lo hi, if_neg (by omega)]
    exact quotedDecimal_d i
  · intro n h1 h2
    rw [of_uint64_eq n h2, if_neg (by omega)]
    exact quotedDecimal_u n

/-- C5 at the unsigned `2^32 - 1`, the `int64_t` `-2^31 - 1` and the `uint64_t` `2^64 - 1`. -/
theorem C5_out_of_range_is_string_witness :
    ((2 : Nat) ^ 31 ≤ 4294967295 ∧ (4294967295 : Nat) < 2 ^ 32) ∧
    QuotedDecimal (JLEAF_t.of_unsigned 4294967295) (4294967295 : Nat) ∧
    QuotedDecimal (JLEAF_t.of_int64 (-2147483649)) (-2147483649) ∧
    QuotedDecimal (JLEAF_t.of_uint64 18446744073709551615) (18446744073709551615 : Nat) :=
  ⟨by decide,
    C5_out_of_range_is_string.1 4294967295 (by decide) (by decide),
    C5_out_of_range_is_string.2.1 (-2147483649) (by decide) (by decide) (by decide),
    C5_out_of_range_is_string.2.2.1 18446744073709551615 (by decide) (by decide)⟩

/-! ## `toString` against the reference renderer -/

theorem digitsCore_eq_digits (fuel n : Nat) (h : n < fuel) (h0 : 0 < n) :
    digitsCore fuel n [] = (Nat.digits 10 n).reverse.map (fun d => Fin.ofNat (48 + d)) := by
  induction fuel generalizing n with
  | zero => omega
  | succ fuel ih =>
    unfold digitsCore
    by_cases h10 : n < 10
    · rw [if_pos h10, Nat.digits_of_lt 10 n (by omega) h10]
      rfl
    · rw [if_neg h10, digitsCore_acc, ih (n / 10) (by omega) (by omega),
        Nat.digits_def' (by decide) h0]
      simp

theorem sprintf_u_eq_decimalNat (n : Nat) : sprintf_u n = decimalNat n := by
  unfold sprintf_u decimalNat
  by_cases h0 : n = 0
  · subst h0
    rfl
  · rw [if_neg h0, digitsCore_eq_digits (n + 1) n (Nat.lt_succ_self n) (by omega)]

theorem sprintf_d_eq_decimalText (i : Int) : sprintf_d i = decimalText i := by
  unfold sprintf_d decimalText
  by_cases hneg : i < 0
  · rw [if_pos hneg, if_pos hneg, sprintf_u_eq_decimalNat]
    congr 2
    omega
  · rw [if_neg hneg, if_neg hneg, sprintf_u_eq_decimalNat]
    congr 1
    omega

theorem expand_succ (fmt : Double → Str) (hdr : Byte) (xs : List JLEAF_t) (i : Nat)
    (sbuf : Str) :
    JLEAF_t.expand fmt hdr xs (i + 1) sbuf =
      sbuf ++ xs.flatMap (fun x => (44 : Byte) :: x.toString fmt) := by
  induction xs generalizing i sbuf with
  | nil => simp [JLEAF_t.expand]
  | cons x xs ih => simp [JLEAF_t.expand, ih]

theorem intercalate_cons (sep a : Str) (rest : List Str) :
    List.intercalate sep (a :: rest) = a ++ rest.flatMap (fun r => sep ++ r) := by
  induction rest generalizing a with
  | nil => simp [List.intercalate]
  | cons b rest ih =>
    have h := ih b
    simp only [List.intercalate, List.intersperse, List.flatten_cons] at h ⊢
    rw [h]
    simp

theorem expand_zero (fmt : Double → Str) (hdr : Byte) (x : JLEAF_t) (xs : List JLEAF_t) :
    JLEAF_t.expand fmt hdr (x :: xs) 0 [] =
      hdr :: commaJoin ((x :: xs).map (JLEAF_t.toString fmt)) := by
  simp [JLEAF_t.expand, expand_succ, commaJoin, intercalate_cons, List.flatMap_map]

theorem toString_seq (fmt : Double → Str) (hdr tlr : Byte) (v : List JLEAF_t) :
    (if v.isEmpty then [hdr, tlr] else JLEAF_t.expand fmt hdr v 0 [] ++ [tlr]) =
      [hdr] ++ commaJoin (v.map (JLEAF_t.toString fmt)) ++ [tlr] := by
  cases v with
  | nil => simp [commaJoin, List.intercalate]
  | cons x xs => simp [expand_zero]

mutual
theorem toString_eq_render (fmt : Double → Str) :
    (v : JLEAF_t) → plain v = true → v.toString fmt = render v
  | .NUMBER i, _ => by simp [JLEAF_t.toString, render, sprintf_d_eq_decimalText]
  | .STRING s, _ => by simp [JLEAF_t.toString, render]
  | .PAIR k v, h => by
    have hv := toString_eq_render fmt v (by simpa [plain] using h)
    have hs : str "\":" = [34, 58] := rfl
    simp [JLEAF_t.toString, render, hv, hs]
  | .ARRAY v, h => by
    have hv := map_toString_eq_renderAll fmt v (by simpa [plain] using h)
    have := toString_seq fmt 91 93 v
    simp only [JLEAF_t.toString, render, ← hv]
    exact this
  | .OBJECT v, h => by
    have hv := map_toString_eq_renderAll fmt v (by simpa [plain] using h)
    have := toString_seq fmt 123 125 v
    simp only [JLEAF_t.toString, render, ← hv]
    exact this
  | .DOUBLE _, h => by simp [plain] at h
  | .OBJBEG, h => by simp [plain] at h
  | .OBJEND, h => by simp [plain] at h
  | .ARRBEG, h => by simp [plain] at h
  | .ARREND, h => by simp [plain] at h
theorem map_toString_eq_renderAll (fmt : Double → Str) :
    (vs : List JLEAF_t) → plainAll vs = true → vs.map (JLEAF_t.toString fmt) = renderAll vs
  | [], _ => rfl
  | x :: xs, h => by
    have hx : plain x = true ∧ plainAll xs = true := by simpa [plainAll] using h
    simp [renderAll, toString_eq_render fmt x hx.1, map_toString_eq_renderAll fmt xs hx.2]
end

/-- C8: on every value that holds neither marker nor double, `JLEAF_t::toString` is the
reference renderer: decimal text for a number, the payload copied between double quotes for a
string, `"k":` followed by the value for a pair, the comma-joined renderings of the elements
between `[` `]` for an array and between `{` `}` for an object; the empty array is `[]` and
the empty object is `{}`. -/
theorem C8_toString_refines_render (fmt : Double → Str) :
    (∀ v : JLEAF_t, plain v = true → v.toString fmt = render v) ∧
    (JLEAF_t.ARRAY []).toString fmt = [0x5b, 0x5d] ∧
    (JLEAF_t.OBJECT []).toString fmt = [0x7b, 0x7d] :=
  ⟨toString_eq_render fmt, rfl, rfl⟩

/-- C8 at the object `{"a":[-7,"x",{}]}`. -/
theorem C8_toString_refines_render_witness :
    plain (.OBJECT [.PAIR [0x61] (.ARRAY [.NUMBER (-7), .STRING [0x78], .OBJECT []])]) = true ∧
    (JLEAF_t.OBJECT [.PAIR [0x61] (.ARRAY [.NUMBER (-7), .STRING [0x78], .OBJECT []])]).toString
        (fun _ => []) =
      render (.OBJECT [.PAIR [0x61] (.ARRAY [.NUMBER (-7), .STRING [0x78], .OBJECT []])]) :=
  ⟨by decide, (C8_toString_refines_render (fun _ => [])).1 _ (by decide)⟩

/-! ## the closing operators -/

theorem typAt_marker (pre tail : List JLEAF_t) (m : JLEAF_t) :
    typAt (pre ++ m :: tail) pre.length = some m.typ := by
  rw [typAt, List.getElem?_append_right (Nat.le_refl _)]
  simp

theorem typAt_tail (pre tail : List JLEAF_t) (m : JLEAF_t) (k : Nat) :
    typAt (pre ++ m :: tail) (pre.length + (k + 1)) = tail[k]?.map JLEAF_t.typ := by
  simp [typAt, List.getElem?_append_right]

theorem typAt_ne_of_forall (root : List JLEAF_t) (t : typ_t) (h : ∀ x ∈ root, x.typ ≠ t)
    (i : Nat) : typAt root i ≠ some t := by
  unfold typAt
  intro hi
  cases hx : root[i]? with
  | none => simp [hx] at hi
  | some x =>
    simp [hx] at hi
    exact h x (List.getElem?_mem hx) hi

/-- The walk back from the last index stops on the marker when nothing after it has the
wanted tag. -/
theorem walkback_found (pre tail : List JLEAF_t) (m : JLEAF_t) (t : typ_t) (hm : m.typ = t)
    (htail : ∀ x ∈ tail, x.typ ≠ t) (k : Nat) (hk : k ≤ tail.length) :
    walkback (pre ++ m :: tail) t (pre.length + k) = pre.length := by
  induction k with
  | zero =>
    cases hp : pre.length with
    | zero => rfl
    | succ p =>
      have h := typAt_marker pre tail m
      rw [hp, hm] at h
      simp [walkback, h]
  | succ k ih =>
    have h := typAt_tail pre tail m k
    have hne : typAt (pre ++ m :: tail) (pre.length + k + 1) ≠ some t := by
      rw [Nat.add_assoc, h]
      have hlt : k < tail.length := hk
      simp [List.getElem?_eq_getElem hlt]
      exact htail _ (List.getElem_mem hlt)
    rw [← Nat.add_assoc]
    simp only [walkback, if_pos hne]
    exact ih (by omega)

theorem walkback_last (pre tail : List JLEAF_t) (m : JLEAF_t) (t : typ_t) (hm : m.typ = t)
    (htail : ∀ x ∈ tail, x.typ ≠ t) :
    walkback (pre ++ m :: tail) t ((pre ++ m :: tail).length - 1) = pre.length := by
  have h := walkback_found pre tail m t hm htail tail.length (Nat.le_refl _)
  have hlen : (pre ++ m :: tail).length - 1 = pre.length + tail.length := by simp
  rw [hlen]
  exact h

theorem set_take_marker (pre tail : List JLEAF_t) (m x : JLEAF_t) :
    ((pre ++ m :: tail).set pre.length x).take (pre.length + 1) = pre ++ [x] := by
  rw [List.set_append_right _ _ (Nat.le_refl _)]
  simp [List.take_append_eq_append_take]

theorem drop_marker (pre tail : List JLEAF_t) (m : JLEAF_t) :
    (pre ++ m :: tail).drop (pre.length + 1) = tail := by
  simp [List.drop_append_eq_append_drop]

theorem pairLoop_keyValues (kvs : List (Str × JLEAF_t)) (v : List JLEAF_t) :
    pairLoop (keyValues kvs) v = .ok (v ++ pairsOf kvs) := by
  induction kvs generalizing v with
  | nil => simp [keyValues, pairsOf, pairLoop]
  | cons p kvs ih =>
    have hk : keyValues (p :: kvs) = .STRING p.1 :: p.2 :: keyValues kvs := rfl
    have hp : pairsOf (p :: kvs) = .PAIR p.1 p.2 :: pairsOf kvs := rfl
    rw [hk, hp, pairLoop, ih]
    simp

theorem keyValues_typ (kvs : List (Str × JLEAF_t)) (t : typ_t) (ht : t ≠ .STRING)
    (h : ∀ p ∈ kvs, p.2.typ ≠ t) : ∀ x ∈ keyValues kvs, x.typ ≠ t := by
  intro x hx
  simp only [keyValues, List.mem_flatMap, List.mem_cons, List.mem_nil_iff, or_false] at hx
  obtain ⟨p, hp, hx | hx⟩ := hx
  · rw [hx]
    exact fun h => ht h.symm
  · rw [hx]
    exact h p hp

/-- The close of an object on `pre ++ [OBJBEG] ++ keys and values`. -/
theorem comma_JOBJEND_keyValues (pre : List JLEAF_t) (kvs : List (Str × JLEAF_t))
    (h : ∀ p ∈ kvs, p.2.typ ≠ .OBJBEG) :
    comma_JOBJEND ⟨pre ++ .OBJBEG :: keyValues kvs⟩ = .ok ⟨pre ++ [.OBJECT (pairsOf kvs)]⟩ := by
  have htail := keyValues_typ kvs .OBJBEG (by decide) h
  have hw := walkback_last pre (keyValues kvs) .OBJBEG .OBJBEG rfl htail
  have hlen : (pre ++ JLEAF_t.OBJBEG :: keyValues kvs).length ≠ 0 := by simp
  unfold comma_JOBJEND
  simp only [if_neg hlen, hw, typAt_marker, drop_marker, pairLoop_keyValues, set_take_marker]
  simp [JLEAF_t.typ]

/-- The close of an array on `pre ++ [ARRBEG] ++ tail`. -/
theorem comma_JARREND_tail (pre tail : List JLEAF_t) (h : ∀ x ∈ tail, x.typ ≠ .ARRBEG) :
    comma_JARREND ⟨pre ++ .ARRBEG :: tail⟩ = .ok ⟨pre ++ [.ARRAY tail]⟩ := by
  have hw := walkback_last pre tail .ARRBEG .ARRBEG rfl h
  have hlen : (pre ++ JLEAF_t.ARRBEG :: tail).length ≠ 0 := by simp
  unfold comma_JARREND
  simp only [if_neg hlen, hw, typAt_marker, drop_marker, set_take_marker]
  simp [JLEAF_t.typ]

theorem comma_JOBJEND_no_marker (root : List JLEAF_t) (hne : root ≠ [])
    (h : ∀ x ∈ root, x.typ ≠ .OBJBEG) :
    comma_JOBJEND ⟨root⟩ = .error (.markerNotFound root) := by
  have hlen : root.length ≠ 0 := by simpa using hne
  unfold comma_JOBJEND
  simp only [if_neg hlen, if_pos (typAt_ne_of_forall root .OBJBEG h _)]

theorem comma_JARREND_no_marker (root : List JLEAF_t) (hne : root ≠ [])
    (h : ∀ x ∈ root, x.typ ≠ .ARRBEG) :
    comma_JARREND ⟨root⟩ = .error (.markerNotFound root) := by
  have hlen : root.length ≠ 0 := by simpa using hne
  unfold comma_JARREND
  simp only [if_neg hlen, if_pos (typAt_ne_of_forall root .ARRBEG h _)]

/-- C2: on a sequence `pre ++ [ObjBegin] ++ [String k1, v1, ..., String kn, vn]` (`n >= 0`)
in which no `vi` has the tag `ObjBegin`, the close of an object succeeds and returns exactly
`pre ++ [Object [Pair(k1, v1), ..., Pair(kn, vn)]]`: the pairs are in their original order,
one per key (duplicate keys kept), `pre` is unchanged and the result has length
`|pre| + 1`. -/
theorem C2_closeObject_reduces (pre : List JLEAF_t) (kvs : List (Str × JLEAF_t))
    (h : ∀ p ∈ kvs, p.2.typ ≠ .OBJBEG) :
    comma_JOBJEND ⟨pre ++ [.OBJBEG] ++ keyValues kvs⟩ =
        .ok ⟨pre ++ [.OBJECT (kvs.map (fun p => .PAIR p.1 p.2))]⟩ ∧
      (pre ++ [JLEAF_t.OBJECT (kvs.map (fun p => .PAIR p.1 p.2))]).length = pre.length + 1 := by
  constructor
  · rw [List.append_assoc]
    exact comma_JOBJEND_keyValues pre kvs h
  · simp

/-- C2 on `[1, ObjBegin, "a", 1, "a", ArrBegin]`: the duplicate key `a` is kept, the value
`ArrBegin` is paired like any other. -/
theorem C2_closeObject_reduces_witness :
    (∀ p ∈ [(([97] : Str), JLEAF_t.NUMBER 1), ([97], JLEAF_t.ARRBEG)], p.2.typ ≠ .OBJBEG) ∧
    comma_JOBJEND
        ⟨[.NUMBER 1, .OBJBEG, .STRING [97], .NUMBER 1, .STRING [97], .ARRBEG]⟩ =
      .ok ⟨[.NUMBER 1, .OBJECT [.PAIR [97] (.NUMBER 1), .PAIR [97] .ARRBEG]]⟩ :=
  ⟨by decide,
    (C2_closeObject_reduces [.NUMBER 1] [([97], .NUMBER 1), ([97], .ARRBEG)] (by decide)).1⟩

/-- C3: on a sequence `pre ++ [ArrBegin] ++ tail` in which no element of `tail` has the tag
`ArrBegin` (`tail` may be empty and may hold `ObjBegin` markers), the close of an array
succeeds and returns exactly `pre ++ [Array tail]`: the nearest `ArrBegin` is matched, the
elements of the array are `tail` in order, `pre` is unchanged and the result has length
`|pre| + 1`. -/
theorem C3_closeArray_reduces (pre tail : List JLEAF_t) (h : ∀ x ∈ tail, x.typ ≠ .ARRBEG) :
    comma_JARREND ⟨pre ++ [.ARRBEG] ++ tail⟩ = .ok ⟨pre ++ [.ARRAY tail]⟩ ∧
      (pre ++ [JLEAF_t.ARRAY tail]).length = pre.length + 1 := by
  constructor
  · rw [List.append_assoc]
    exact comma_JARREND_tail pre tail h
  · simp

/-- C3 on `[ArrBegin, 1, ArrBegin, ObjBegin, "x"]`: the second `ArrBegin` is matched, the
first stays, the `ObjBegin` becomes an element. -/
theorem C3_closeArray_reduces_witness :
    (∀ x ∈ [JLEAF_t.OBJBEG, JLEAF_t.STRING [120]], x.typ ≠ .ARRBEG) ∧
    comma_JARREND ⟨[.ARRBEG, .NUMBER 1, .ARRBEG, .OBJBEG, .STRING [120]]⟩ =
      .ok ⟨[.ARRBEG, .NUMBER 1, .ARRAY [.OBJBEG, .STRING [120]]]⟩ :=
  ⟨by decide,
    (C3_closeArray_reduces [.ARRBEG, .NUMBER 1] [.OBJBEG, .STRING [120]] (by decide)).1⟩

/-- C9: the close of an object fails on every sequence without an element of tag `ObjBegin`:
with `assert(size)` on the empty sequence, with the dump and the `assert` on the tag
otherwise; and the close of an array fails in the same way on every sequence without an
element of tag `ArrBegin`.  No builder is returned. -/
theorem C9_close_without_marker :
    comma_JOBJEND ⟨[]⟩ = .error .assertSize ∧
    (∀ root : List JLEAF_t, root ≠ [] → (∀ x ∈ root, x.typ ≠ .OBJBEG) →
      comma_JOBJEND ⟨root⟩ = .error (.markerNotFound root)) ∧
    comma_JARREND ⟨[]⟩ = .error .assertSize ∧
    (∀ root : List JLEAF_t, root ≠ [] → (∀ x ∈ root, x.typ ≠ .ARRBEG) →
      comma_JARREND ⟨root⟩ = .error (.markerNotFound root)) :=
  ⟨rfl, comma_JOBJEND_no_marker, rfl, comma_JARREND_no_marker⟩

/-- C9 on sequences that hold markers of the other kind, end markers and reduced values (one
of them with the wanted marker inside): none of these is a match. -/
theorem C9_close_without_marker_witness :
    ((∀ x ∈ [JLEAF_t.ARRBEG, .OBJEND, .ARREND, .OBJECT [], .ARRAY [.OBJBEG]],
        x.typ ≠ .OBJBEG) ∧
      comma_JOBJEND ⟨[.ARRBEG, .OBJEND, .ARREND, .OBJECT [], .ARRAY [.OBJBEG]]⟩ =
        .error (.markerNotFound [.ARRBEG, .OBJEND, .ARREND, .OBJECT [], .ARRAY [.OBJBEG]])) ∧
    ((∀ x ∈ [JLEAF_t.OBJBEG, .ARREND, .OBJEND, .ARRAY [], .OBJECT [.PAIR [97] .ARRBEG]],
        x.typ ≠ .ARRBEG) ∧
      comma_JARREND ⟨[.OBJBEG, .ARREND, .OBJEND, .ARRAY [], .OBJECT [.PAIR [97] .ARRBEG]]⟩ =
        .error (.markerNotFound
          [.OBJBEG, .ARREND, .OBJEND, .ARRAY [], .OBJECT [.PAIR [97] .ARRBEG]])) :=
  ⟨⟨by decide, C9_close_without_marker.2.1 _ (List.cons_ne_nil _ _) (by decide)⟩,
    ⟨by decide, C9_close_without_marker.2.2.2 _ (List.cons_ne_nil _ _) (by decide)⟩⟩

/-! ## `JBASE_t::toString` -/

theorem JBASE_toString_error_iff (fmt : Double → Str) (b : JBASE_t) :
    (∃ e, b.toString fmt = .error e) ↔ b.root.length ≠ 1 := by
  obtain ⟨root⟩ := b
  match root with
  | [] => simp [JBASE_t.toString]
  | [x] => simp [JBASE_t.toString]
  | x :: y :: rest => simp [JBASE_t.toString]

theorem JBASE_toString_long (fmt : Double → Str) (b : JBASE_t) (h : 2 ≤ b.root.length) :
    b.toString fmt = .error .assertSizeOne := by
  obtain ⟨root⟩ := b
  match root, h with
  | x :: y :: rest, _ => rfl

/-- C10: `JBASE_t::toString` fails exactly when `root` does not hold one element: it fails
(on its `assert`) for the empty sequence and for every sequence of two or more elements, and
for `[v]` it returns the rendering of `v`. -/
theorem C10_serialize_needs_one_element (fmt : Double → Str) :
    (∀ b : JBASE_t, (∃ e, b.toString fmt = .error e) ↔ b.root.length ≠ 1) ∧
    JBASE_t.toString fmt ⟨[]⟩ = .error .assertSizeOne ∧
    (∀ b : JBASE_t, 2 ≤ b.root.length → b.toString fmt = .error .assertSizeOne) ∧
    (∀ v : JLEAF_t, JBASE_t.toString fmt ⟨[v]⟩ = .ok (v.toString fmt)) :=
  ⟨JBASE_toString_error_iff fmt, rfl, JBASE_toString_long fmt, fun _ => rfl⟩

/-- C10 on a sequence of two numbers. -/
theorem C10_serialize_needs_one_element_witness :
    2 ≤ (JBASE_t.mk [.NUMBER 1, .NUMBER 2]).root.length ∧
    JBASE_t.toString (fun _ => []) ⟨[.NUMBER 1, .NUMBER 2]⟩ = .error .assertSizeOne :=
  ⟨by decide,
    (C10_serialize_needs_one_element (fun _ => [])).2.2.1 ⟨[.NUMBER 1, .NUMBER 2]⟩
      (by decide)⟩

/-! ## chains that linearise a tree -/

theorem chain_append (r : JBASE_t) (xs ys : List Op) :
    chain r (xs ++ ys) =
      match chain r xs with
      | .error e => .error e
      | .ok r1 => chain r1 ys := by
  induction xs generalizing r with
  | nil => rfl
  | cons x xs ih =>
    simp only [List.cons_append, chain]
    cases comma r x with
    | error e => rfl
    | ok r1 => exact ih r1

theorem chain_append_ok (r r1 : JBASE_t) (xs ys : List Op) (h : chain r xs = .ok r1) :
    chain r (xs ++ ys) = chain r1 ys := by
  rw [chain_append, h]

theorem chain_prefix_ok (r b : JBASE_t) (xs ys : List Op) (h : chain r (xs ++ ys) = .ok b) :
    ∃ b1, chain r xs = .ok b1 := by
  rw [chain_append] at h
  cases hx : chain r xs with
  | error e => rw [hx] at h; cases h
  | ok r1 => exact ⟨r1, rfl⟩

theorem chain_take_ok (r b : JBASE_t) (xs : List Op) (h : chain r xs = .ok b) (k : Nat) :
    ∃ b1, chain r (xs.take k) = .ok b1 := by
  rw [← List.take_append_drop k xs] at h
  exact chain_prefix_ok r b _ _ h

theorem valueOf_typ (t : JTree) : (valueOf t).typ ≠ .OBJBEG ∧ (valueOf t).typ ≠ .ARRBEG := by
  cases t <;> simp [valueOf, JLEAF_t.typ]

theorem valueOfElems_typ (ts : List JTree) : ∀ x ∈ valueOfElems ts, x.typ ≠ .ARRBEG := by
  induction ts with
  | nil => simp [valueOfElems]
  | cons t ts ih =>
    intro x hx
    simp only [valueOfElems, List.mem_cons] at hx
    rcases hx with hx | hx
    · rw [hx]; exact (valueOf_typ t).2
    · exact ih x hx

theorem valueOfMembers_typ (ms : List (Str × JTree)) :
    ∀ p ∈ valueOfMembers ms, p.2.typ ≠ .OBJBEG := by
  induction ms with
  | nil => simp [valueOfMembers]
  | cons m ms ih =>
    obtain ⟨k, t⟩ := m
    intro p hp
    simp only [valueOfMembers, List.mem_cons] at hp
    rcases hp with hp | hp
    · rw [hp]; exact (valueOf_typ t).1
    · exact ih p hp

mutual
/-- Running the operators of a tree on any sequence appends the value of the tree. -/
theorem chain_linearise : (t : JTree) → (pre : List JLEAF_t) →
    chain ⟨pre⟩ (linearise t) = .ok ⟨pre ++ [valueOf t]⟩
  | .int i, pre => by simp [linearise, valueOf, chain, comma, comma_int, JLEAF_t.of_int]
  | .str s, pre => by simp [linearise, valueOf, chain, comma, comma_string]
  | .arr elems, pre => by
    have h1 : chain ⟨pre⟩ [Op.JARRBEG] = .ok ⟨pre ++ [.ARRBEG]⟩ := rfl
    have h2 := chain_linearise_elems elems (pre ++ [.ARRBEG])
    have h3 := comma_JARREND_tail pre (valueOfElems elems) (valueOfElems_typ elems)
    simp only [linearise, valueOf, List.append_assoc]
    rw [chain_append_ok _ _ _ _ h1, chain_append_ok _ _ _ _ h2]
    simp only [chain, comma, List.append_assoc, List.singleton_append, h3]
  | .obj members, pre => by
    have h1 : chain ⟨pre⟩ [Op.JOBJBEG] = .ok ⟨pre ++ [.OBJBEG]⟩ := rfl
    have h2 := chain_linearise_members members (pre ++ [.OBJBEG])
    have h3 := comma_JOBJEND_keyValues pre (valueOfMembers members)
      (valueOfMembers_typ members)
    simp only [linearise, valueOf, List.append_assoc]
    rw [chain_append_ok _ _ _ _ h1, chain_append_ok _ _ _ _ h2]
    simp only [chain, comma, List.append_assoc, List.singleton_append, h3]
theorem chain_linearise_elems : (ts : List JTree) → (pre : List JLEAF_t) →
    chain ⟨pre⟩ (lineariseElems ts) = .ok ⟨pre ++ valueOfElems ts⟩
  | [], pre => by simp [lineariseElems, valueOfElems, chain]
  | t :: ts, pre => by
    have h1 := chain_linearise t pre
    have h2 := chain_linearise_elems ts (pre ++ [valueOf t])
    simp only [lineariseElems, valueOfElems]
    rw [chain_append_ok _ _ _ _ h1, h2]
    simp
theorem chain_linearise_members : (ms : List (Str × JTree)) → (pre : List JLEAF_t) →
    chain ⟨pre⟩ (lineariseMembers ms) = .ok ⟨pre ++ keyValues (valueOfMembers ms)⟩
  | [], pre => by simp [lineariseMembers, valueOfMembers, keyValues, chain]
  | (k, t) :: ms, pre => by
    have h0 : chain ⟨pre⟩ [Op.string k] = .ok ⟨pre ++ [.STRING (JBASE_t.escapeString k)]⟩ :=
      rfl
    have h1 := chain_linearise t (pre ++ [.STRING (JBASE_t.escapeString k)])
    have h2 := chain_linearise_members ms
      (pre ++ [.STRING (JBASE_t.escapeString k)] ++ [valueOf t])
    simp only [lineariseMembers, valueOfMembers, List.append_assoc]
    rw [chain_append_ok _ _ _ _ h0, chain_append_ok _ _ _ _ h1, h2]
    simp [keyValues]
end

mutual
/-- The value of a tree renders as the compact JSON text of the tree. -/
theorem toString_valueOf (fmt : Double → Str) :
    (t : JTree) → (valueOf t).toString fmt = jsonText t
  | .int i => by simp [valueOf, jsonText, JLEAF_t.toString, sprintf_d_eq_decimalText]
  | .str s => by simp [valueOf, jsonText, JLEAF_t.toString]
  | .arr elems => by
    have h := toString_valueOfElems fmt elems
    have hs := toString_seq fmt 91 93 (valueOfElems elems)
    simp only [valueOf, jsonText, JLEAF_t.toString, ← h]
    exact hs
  | .obj members => by
    have h := toString_valueOfMembers fmt members
    have hs := toString_seq fmt 123 125 (pairsOf (valueOfMembers members))
    simp only [valueOf, jsonText, JLEAF_t.toString, ← h]
    exact hs
theorem toString_valueOfElems (fmt : Double → Str) :
    (ts : List JTree) → (valueOfElems ts).map (JLEAF_t.toString fmt) = jsonTextElems ts
  | [] => rfl
  | t :: ts => by
    simp [valueOfElems, jsonTextElems, toString_valueOf fmt t, toString_valueOfElems fmt ts]
theorem toString_valueOfMembers (fmt : Double → Str) :
    (ms : List (Str × JTree)) →
      (pairsOf (valueOfMembers ms)).map (JLEAF_t.toString fmt) = jsonTextMembers ms
  | [] => rfl
  | (k, t) :: ms => by
    have hs : str "\":" = [34, 58] := rfl
    have h := toString_valueOfMembers fmt ms
    simp only [pairsOf] at h
    simp [valueOfMembers, jsonTextMembers, pairsOf, JLEAF_t.toString, hs,
      toString_valueOf fmt t, h]
end

/-! ## the document of `example.cc` -/

theorem example_blob_eq : example_blob = .ok ⟨[example_blob_value]⟩ := rfl

theorem example_doc_eq : example_doc ⟨[example_blob_value]⟩ = .ok ⟨[example_value]⟩ := rfl

theorem toString_ARRAY (fmt : Double → Str) (v : List JLEAF_t) :
    (JLEAF_t.ARRAY v).toString fmt = [91] ++ commaJoin (v.map (JLEAF_t.toString fmt)) ++ [93] := by
  rw [JLEAF_t.toString]
  exact toString_seq fmt 91 93 v

theorem toString_OBJECT (fmt : Double → Str) (v : List JLEAF_t) :
    (JLEAF_t.OBJECT v).toString fmt =
      [123] ++ commaJoin (v.map (JLEAF_t.toString fmt)) ++ [125] := by
  rw [JLEAF_t.toString]
  exact toString_seq fmt 123 125 v

theorem toString_PAIR (fmt : Double → Str) (k : Str) (v : JLEAF_t) :
    (JLEAF_t.PAIR k v).toString fmt = [34] ++ k ++ [34, 58] ++ v.toString fmt := by
  rw [JLEAF_t.toString]
  rfl

theorem toString_DOUBLE (fmt : Double → Str) (d : Double) :
    (JLEAF_t.DOUBLE d).toString fmt = fmt d := by
  rw [JLEAF_t.toString]

set_option maxRecDepth 100000 in
theorem example_value_toString (fmt : Double → Str) :
    example_value.toString fmt = example_text fmt := by
  unfold example_value example_blob_value example_text
  simp only [toString_OBJECT, toString_ARRAY, toString_PAIR, toString_DOUBLE, List.map,
    commaJoin, List.intercalate, List.intersperse, List.flatten, List.append_assoc,
    List.append_nil]
  rfl

theorem example_main_eq (fmt : Double → Str) : example_main fmt = .ok (example_text fmt) := by
  unfold example_main
  rw [example_blob_eq]
  simp only [example_doc_eq, JBASE_t.toString]
  rw [example_value_toString]

/-- C1: for every JSON tree `t` (integer and string leaves, arrays, objects as ordered lists
of members), the chain of operators that linearises `t`, run on an empty builder, succeeds at
every step (every initial part of the chain returns a builder), leaves exactly one element,
the value of `t`, and `JBASE_t::toString` returns the compact JSON text of `t`: elements and
members in their order, each key with the value that followed it, keys and string leaves
escaped by `escapeString` between double quotes.  The document of `example.cc` prints the
expected text, in which the member `vector` reads
`"vector":["2147483648","AB\"CD\u0007EF",["a\u0007b","c\"d","e\tf"]]`. -/
theorem C1_linearised_tree_serialises :
    (∀ t : JTree,
      chain JBASE_t.empty (linearise t) = .ok ⟨[valueOf t]⟩ ∧
      (∀ k : Nat, ∃ b : JBASE_t, chain JBASE_t.empty ((linearise t).take k) = .ok b) ∧
      (JBASE_t.mk [valueOf t]).root.length = 1 ∧
      (∀ fmt : Double → Str, JBASE_t.toString fmt ⟨[valueOf t]⟩ = .ok (jsonText t))) ∧
    (∀ fmt : Double → Str,
      example_main fmt = .ok (example_text fmt) ∧ example_vector_text <:+: example_text fmt) := by
  constructor
  · intro t
    have h : chain JBASE_t.empty (linearise t) = .ok ⟨[valueOf t]⟩ := by
      have := chain_linearise t []
      simpa [JBASE_t.empty] using this
    refine ⟨h, fun k => chain_take_ok _ _ _ h k, rfl, fun fmt => ?_⟩
    simp only [JBASE_t.toString, toString_valueOf]
  · intro fmt
    refine ⟨example_main_eq fmt, ?_⟩
    unfold example_text
    exact ((((((List.suffix_append _ _).isInfix.trans (List.prefix_append _ _).isInfix).trans
      (List.prefix_append _ _).isInfix).trans (List.prefix_append _ _).isInfix).trans
      (List.prefix_append _ _).isInfix).trans (List.prefix_append _ _).isInfix)

/-! ## the integer constructors on the 32-bit signed range -/

/-- What the integer constructors do with a value of the 32-bit signed range: `NUMBER` from
`int`, from `unsigned` and `uint64_t` (values up to `2^31 - 1`) and from a non-negative
`int64_t`; a negative `int64_t` has a bit of the mask set and becomes a `STRING`. -/
theorem integer_constructors_in_range :
    (∀ i : Int, PlainNumber (JLEAF_t.of_int i) i) ∧
    (∀ n : Nat, n < 2 ^ 31 → PlainNumber (JLEAF_t.of_unsigned n) n) ∧
    (∀ n : Nat, n < 2 ^ 31 → PlainNumber (JLEAF_t.of_uint64 n) n) ∧
    (∀ i : Int, 0 ≤ i → i < 2 ^ 31 → PlainNumber (JLEAF_t.of_int64 i) i) ∧
    (∀ i : Int, -2 ^ 63 ≤ i → i < 0 → QuotedDecimal (JLEAF_t.of_int64 i) i) := by
  refine ⟨fun i => plainNumber i, ?_, ?_, ?_, ?_⟩
  · intro n h
    rw [of_unsigned_eq n (by omega), if_pos h]
    exact plainNumber _
  · intro n h
    rw [of_uint64_eq n (by omega), if_pos h]
    exact plainNumber _
  · intro i h0 h
    rw [of_int64_eq i (by omega) (by omega), if_pos ⟨h0, h⟩]
    exact plainNumber _
  · intro i lo h
    rw [of_int64_eq i lo (by omega), if_neg (by omega)]
    exact quotedDecimal_d i

/-! ## markers that reach `toString` -/

/-- C11, as stated, fails: a builder that holds one element which is a marker, or which
holds a marker inside, is serialised to text; the marker renders as its placeholder token. -/
theorem C11_marker_is_serialised :
    JBASE_t.toString (fun _ => []) ⟨[.OBJBEG]⟩ = .ok (str "#OBJBEG#") ∧
    JBASE_t.toString (fun _ => []) ⟨[.ARRAY [.NUMBER 1, .ARREND]]⟩ = .ok (str "[1,#ARREND#]") ∧
    ¬ ∃ e, JBASE_t.toString (fun _ => []) ⟨[.OBJBEG]⟩ = .error e := by
  refine ⟨rfl, rfl, ?_⟩
  rintro ⟨e, h⟩
  cases h

/-- C11, amended: `JBASE_t::toString` returns a text exactly when `root` holds one element,
whatever that element is; a marker renders as its placeholder token `#OBJBEG#`, `#OBJEND#`,
`#ARRBEG#`, `#ARREND#`, and it does so inside an array, an object and a pair as well. -/
theorem C11_serialize_renders_markers (fmt : Double → Str) :
    (∀ b : JBASE_t, (∃ text, b.toString fmt = .ok text) ↔ b.root.length = 1) ∧
    JBASE_t.toString fmt ⟨[.OBJBEG]⟩ = .ok (str "#OBJBEG#") ∧
    JBASE_t.toString fmt ⟨[.OBJEND]⟩ = .ok (str "#OBJEND#") ∧
    JBASE_t.toString fmt ⟨[.ARRBEG]⟩ = .ok (str "#ARRBEG#") ∧
    JBASE_t.toString fmt ⟨[.ARREND]⟩ = .ok (str "#ARREND#") ∧
    (∀ v : JLEAF_t, JBASE_t.toString fmt ⟨[.ARRAY [v]]⟩ = .ok ([0x5b] ++ v.toString fmt ++ [0x5d])) ∧
    (∀ v : JLEAF_t, JBASE_t.toString fmt ⟨[.OBJECT [v]]⟩ = .ok ([0x7b] ++ v.toString fmt ++ [0x7d])) ∧
    (∀ (k : Str) (v : JLEAF_t),
      JBASE_t.toString fmt ⟨[.PAIR k v]⟩ = .ok ([0x22] ++ k ++ [0x22, 0x3a] ++ v.toString fmt)) := by
  refine ⟨?_, rfl, rfl, rfl, rfl, ?_, ?_, ?_⟩
  · rintro ⟨root⟩
    match root with
    | [] => simp [JBASE_t.toString]
    | [x] => simp [JBASE_t.toString]
    | x :: y :: rest => simp [JBASE_t.toString]
  · intro v
    simp [JBASE_t.toString, toString_ARRAY, commaJoin, List.intercalate]
  · intro v
    simp [JBASE_t.toString, toString_OBJECT, commaJoin, List.intercalate]
  · intro k v
    simp [JBASE_t.toString, toString_PAIR]

/-- C11, amended, on the builder that holds the one element `[#OBJBEG#]`. -/
theorem C11_serialize_renders_markers_witness :
    (JBASE_t.mk [.ARRAY [.OBJBEG]]).root.length = 1 ∧
    ∃ text, JBASE_t.toString (fun _ => []) ⟨[.ARRAY [.OBJBEG]]⟩ = .ok text :=
  ⟨rfl, ((C11_serialize_renders_markers (fun _ => [])).1 ⟨[.ARRAY [.OBJBEG]]⟩).2 rfl⟩

/-! ## concatenation of builders -/

/-- C12: appending builder `b` to builder `a` gives `a`'s sequence followed by `b`'s, element
for element (not nested), of length `|a| + |b|`; a string appended to `b` and then spliced
into `a` has the payload `escapeString s` in the result, escaped once (which differs from the
twice escaped text, for instance for the one-byte string of a double quote). -/
theorem C12_concatenation_flattens :
    (∀ a b : JBASE_t,
      (comma_JBASE a b).root = a.root ++ b.root ∧
      (comma_JBASE a b).root.length = a.root.length + b.root.length ∧
      (∀ i : Nat, i < a.root.length → (comma_JBASE a b).root[i]? = a.root[i]?) ∧
      (∀ i : Nat, (comma_JBASE a b).root[a.root.length + i]? = b.root[i]?)) ∧
    (∀ (a b : JBASE_t) (s : Str),
      (comma_JBASE a (comma_string b s)).root =
        a.root ++ b.root ++ [.STRING (JBASE_t.escapeString s)]) ∧
    (comma_JBASE JOBJBEG (comma_string JBASE_t.empty [0x22])).root =
      [.OBJBEG, .STRING [0x5c, 0x22]] ∧
    JBASE_t.escapeString (JBASE_t.escapeString [0x22]) = [0x5c, 0x5c, 0x5c, 0x22] := by
  refine ⟨fun a b => ⟨rfl, by simp [comma_JBASE], ?_, ?_⟩, ?_, rfl, by decide⟩
  · intro i hi
    simp [comma_JBASE, List.getElem?_append_left hi]
  · intro i
    simp [comma_JBASE, List.getElem?_append_right]
  · intro a b s
    simp [comma_JBASE, comma_string]

/-- C12 on `a = [1]`, `b = [ArrBegin, 2]`, at the index 0 of `a`. -/
theorem C12_concatenation_flattens_witness :
    0 < (JBASE_t.mk [.NUMBER 1]).root.length ∧
    (comma_JBASE ⟨[.NUMBER 1]⟩ ⟨[.ARRBEG, .NUMBER 2]⟩).root[0]? =
      (JBASE_t.mk [.NUMBER 1]).root[0]? :=
  ⟨by decide, (C12_concatenation_flattens.1 ⟨[.NUMBER 1]⟩ ⟨[.ARRBEG, .NUMBER 2]⟩).2.2.1 0
    (by decide)⟩

/-! ## the range test of the 64-bit constructors -/

/-- C20: the test `i & -0x80000000LL` of the 64-bit constructors: for every `int64_t` `i`,
`JLEAF_t(i)` is the `NUMBER` `i` exactly when `0 <= i <= 2^31 - 1`, and the `STRING` of the
decimal text of `i` otherwise, so for every negative `i` (`-1` and `-2^31` included); for
every `uint64_t` `u`, `JLEAF_t(u)` is the `NUMBER` `u` exactly when `u <= 2^31 - 1`, and the
`STRING` of its decimal text otherwise. -/
theorem C20_mask_decides_tag :
    (∀ i : Int, -2 ^ 63 ≤ i → i < 2 ^ 63 →
      ((JLEAF_t.of_int64 i).typ = .NUMBER ↔ (0 ≤ i ∧ i ≤ 2 ^ 31 - 1)) ∧
      ((0 ≤ i ∧ i ≤ 2 ^ 31 - 1) → JLEAF_t.of_int64 i = .NUMBER i) ∧
      (¬ (0 ≤ i ∧ i ≤ 2 ^ 31 - 1) →
        JLEAF_t.of_int64 i = .STRING (decimalText i) ∧ QuotedDecimal (JLEAF_t.of_int64 i) i)) ∧
    (∀ u : Nat, u < 2 ^ 64 →
      ((JLEAF_t.of_uint64 u).typ = .NUMBER ↔ u ≤ 2 ^ 31 - 1) ∧
      (u ≤ 2 ^ 31 - 1 → JLEAF_t.of_uint64 u = .NUMBER u) ∧
      (¬ u ≤ 2 ^ 31 - 1 →
        JLEAF_t.of_uint64 u = .STRING (decimalText u) ∧ QuotedDecimal (JLEAF_t.of_uint64 u) u)) ∧
    JLEAF_t.of_int64 (-1) = .STRING (str "-1") ∧
    JLEAF_t.of_int64 (-2147483648) = .STRING (str "-2147483648") := by
  refine ⟨?_, ?_, rfl, rfl⟩
  · intro i lo hi
    rw [of_int64_eq i lo hi]
    by_cases h : 0 ≤ i ∧ i < 2 ^ 31
    · have h' : 0 ≤ i ∧ i ≤ 2 ^ 31 - 1 := ⟨h.1, by omega⟩
      rw [if_pos h]
      exact ⟨⟨fun _ => h', fun _ => rfl⟩, fun _ => rfl, fun hn => absurd h' hn⟩
    · have h' : ¬ (0 ≤ i ∧ i ≤ 2 ^ 31 - 1) := fun hc => h ⟨hc.1, by omega⟩
      rw [if_neg h]
      refine ⟨⟨fun hc => by simp [JLEAF_t.typ] at hc, fun hc => absurd hc h'⟩, fun hc => absurd hc h', fun _ => ⟨?_, quotedDecimal_d i⟩⟩
      rw [sprintf_d_eq_decimalText]
  · intro u hu
    rw [of_uint64_eq u hu]
    by_cases h : u < 2 ^ 31
    · have h' : u ≤ 2 ^ 31 - 1 := by omega
      rw [if_pos h]
      exact ⟨⟨fun _ => h', fun _ => rfl⟩, fun _ => rfl, fun hn => absurd h' hn⟩
    · have h' : ¬ u ≤ 2 ^ 31 - 1 := by omega
      rw [if_neg h]
      refine ⟨⟨fun hc => by simp [JLEAF_t.typ] at hc, fun hc => absurd hc h'⟩, fun hc => absurd hc h', fun _ => ⟨?_, quotedDecimal_u u⟩⟩
      rw [sprintf_u_eq_d, sprintf_d_eq_decimalText]

/-- C20 at the `int64_t` `-2^31` and the `uint64_t` `2^31`. -/
theorem C20_mask_decides_tag_witness :
    ((-2 : Int) ^ 63 ≤ -2147483648 ∧ (-2147483648 : Int) < 2 ^ 63) ∧
    ((JLEAF_t.of_int64 (-2147483648)).typ = .NUMBER ↔
      ((0 : Int) ≤ -2147483648 ∧ (-2147483648 : Int) ≤ 2 ^ 31 - 1)) ∧
    ((JLEAF_t.of_uint64 2147483648).typ = .NUMBER ↔ 2147483648 ≤ 2 ^ 31 - 1) :=
  ⟨by decide, (C20_mask_decides_tag.1 (-2147483648) (by decide) (by decide)).1,
    (C20_mask_decides_tag.2.1 2147483648 (by decide)).1⟩

/-! ## the output of `escapeString` as a code -/

set_option maxRecDepth 100000 in
theorem escapeChar_token : ∀ c : Byte, jsonToken (escapeChar c) = true := by
  decide

set_option maxRecDepth 100000 in
theorem escapeChar_bytes : ∀ c : Byte, (escapeChar c).all (fun b => 0x20 ≤ b.val) = true := by
  decide

set_option maxRecDepth 100000 in
/-- The three shapes of the image of a byte, each with the way back to the byte. -/
theorem escapeChar_shape : ∀ c : Byte,
    (escapeChar c = [c] ∧ c ≠ 0x5c) ∨
    (escapeChar c = [0x5c, (escapeChar c).getD 1 0] ∧ (escapeChar c).getD 1 0 ≠ 0x75 ∧
      unescapeShort ((escapeChar c).getD 1 0) = c) ∨
    (escapeChar c = [0x5c, 0x75, 0x30, 0x30, (escapeChar c).getD 4 0, (escapeChar c).getD 5 0] ∧
      Fin.ofNat (hexValue ((escapeChar c).getD 4 0) * 16 + hexValue ((escapeChar c).getD 5 0)) =
        c) := by
  decide

theorem unescapeHead_escapeChar (c : Byte) (rest : Str) :
    unescapeHead (escapeChar c ++ rest) = some (c, rest) := by
  rcases escapeChar_shape c with ⟨h, hc⟩ | ⟨h, hx, hu⟩ | ⟨h, hv⟩
  · rw [h]
    simp [unescapeHead, hc]
  · generalize (escapeChar c).getD 1 0 = x at h hx hu
    rw [h]
    simp [unescapeHead, hx, hu]
  · generalize (escapeChar c).getD 4 0 = x at h hv
    generalize (escapeChar c).getD 5 0 = y at h hv
    rw [h]
    simp [unescapeHead, hv]

theorem escapeString_cons (c : Byte) (s : Str) :
    JBASE_t.escapeString (c :: s) = escapeChar c ++ JBASE_t.escapeString s := by
  simp [escapeString_eq_flatMap]

theorem escapeString_injective (s1 s2 : Str)
    (h : JBASE_t.escapeString s1 = JBASE_t.escapeString s2) : s1 = s2 := by
  induction s1 generalizing s2 with
  | nil =>
    cases s2 with
    | nil => rfl
    | cons d s2 =>
      have hd := unescapeHead_escapeChar d (JBASE_t.escapeString s2)
      rw [← escapeString_cons, ← h] at hd
      simp [JBASE_t.escapeString, escapeLoop, unescapeHead] at hd
  | cons c s1 ih =>
    cases s2 with
    | nil =>
      have hc := unescapeHead_escapeChar c (JBASE_t.escapeString s1)
      rw [← escapeString_cons, h] at hc
      simp [JBASE_t.escapeString, escapeLoop, unescapeHead] at hc
    | cons d s2 =>
      have hc := unescapeHead_escapeChar c (JBASE_t.escapeString s1)
      have hd := unescapeHead_escapeChar d (JBASE_t.escapeString s2)
      rw [← escapeString_cons, h, escapeString_cons, hd] at hc
      have hcd := Option.some.inj hc
      have h1 : d = c := congrArg Prod.fst hcd
      have h2 : JBASE_t.escapeString s2 = JBASE_t.escapeString s1 := congrArg Prod.snd hcd
      rw [h1, ih s2 h2.symm]

theorem escapeChar_prefix_free (c d : Byte) (h : escapeChar c <+: escapeChar d) : c = d := by
  obtain ⟨t, ht⟩ := h
  have hc := unescapeHead_escapeChar c t
  have hd := unescapeHead_escapeChar d []
  rw [ht] at hc
  rw [List.append_nil, hc] at hd
  exact congrArg Prod.fst (Option.some.inj hd)

/-- C18: for every input, the output of `escapeString` is a concatenation of tokens of the
inside of a JSON string literal (a byte from `0x20` on other than the double quote and the
backslash, a two-character escape `\"` `\\` `\/` `\b` `\f` `\n` `\r` `\t`, or `\u00` with two
lowercase hexadecimal digits), one token per input byte; the output holds no byte below
`0x20`. -/
theorem C18_escapeString_json_safe (s : Str) :
    (∃ tokens : List Str,
      tokens.length = s.length ∧ (∀ t ∈ tokens, jsonToken t = true) ∧
        JBASE_t.escapeString s = tokens.flatten) ∧
    (∀ b ∈ JBASE_t.escapeString s, 0x20 ≤ b.val) := by
  constructor
  · refine ⟨s.map escapeChar, by simp, ?_, ?_⟩
    · intro t ht
      obtain ⟨c, _, hc⟩ := List.mem_map.1 ht
      rw [← hc]
      exact escapeChar_token c
    · rw [escapeString_eq_flatMap]
      rfl
  · intro b hb
    rw [escapeString_eq_flatMap] at hb
    obtain ⟨c, _, hc⟩ := List.mem_flatMap.1 hb
    have hall := List.all_eq_true.1 (escapeChar_bytes c) b hc
    simpa using hall

/-- C19: `escapeString` is injective, and the images of single bytes form a prefix-free
code: the image of a byte is an initial part of the image of another byte only when the two
bytes are the same. -/
theorem C19_escapeString_injective :
    (∀ s1 s2 : Str, JBASE_t.escapeString s1 = JBASE_t.escapeString s2 → s1 = s2) ∧
    (∀ c d : Byte, JBASE_t.escapeString [c] <+: JBASE_t.escapeString [d] → c = d) := by
  refine ⟨escapeString_injective, ?_⟩
  intro c d h
  rw [escapeString_single, escapeString_single] at h
  exact escapeChar_prefix_free c d h

/-- C19 at two spellings of the same text. -/
theorem C19_escapeString_injective_witness :
    JBASE_t.escapeString ([0x22] ++ [0x07]) = JBASE_t.escapeString [0x22, 0x07] ∧
    ([0x22] ++ [0x07] : Str) = [0x22, 0x07] :=
  ⟨rfl, C19_escapeString_injective.1 ([0x22] ++ [0x07]) [0x22, 0x07] rfl⟩

/-- C18 on the text of a double quote and the byte `0x07`: the backslash of the output is a
byte from `0x20` on. -/
theorem C18_escapeString_json_safe_witness :
    (0x5c : Byte) ∈ JBASE_t.escapeString [0x22, 0x07] ∧ 0x20 ≤ (0x5c : Byte).val :=
  ⟨by decide, (C18_escapeString_json_safe [0x22, 0x07]).2 0x5c (by decide)⟩

/-! ## vectors -/

theorem chain_map_int (pre : List JLEAF_t) (xs : List Int) :
    chain ⟨pre⟩ (xs.map Op.int) = .ok ⟨pre ++ xs.map JLEAF_t.of_int⟩ := by
  induction xs generalizing pre with
  | nil => simp [chain]
  | cons x xs ih =>
    simp only [List.map_cons, chain, comma, comma_int]
    rw [ih]
    simp

theorem chain_map_string (pre : List JLEAF_t) (xs : List Str) :
    chain ⟨pre⟩ (xs.map Op.string) =
      .ok ⟨pre ++ xs.map (fun s => .STRING (JBASE_t.escapeString s))⟩ := by
  induction xs generalizing pre with
  | nil => simp [chain]
  | cons x xs ih =>
    simp only [List.map_cons, chain, comma, comma_string]
    rw [ih]
    simp

theorem chain_bracketed (r : JBASE_t) (ops : List Op) (vals : List JLEAF_t)
    (hops : ∀ pre, chain ⟨pre⟩ ops = .ok ⟨pre ++ vals⟩) (hvals : ∀ x ∈ vals, x.typ ≠ .ARRBEG) :
    chain r ([.JARRBEG] ++ ops ++ [.JARREND]) = .ok ⟨r.root ++ [.ARRAY vals]⟩ := by
  have h1 : chain r [Op.JARRBEG] = .ok ⟨r.root ++ [.ARRBEG]⟩ := rfl
  have h3 := comma_JARREND_tail r.root vals hvals
  rw [List.append_assoc, chain_append_ok _ _ _ _ h1, chain_append_ok _ _ _ _ (hops _)]
  simp only [chain, comma, List.append_assoc, List.singleton_append, h3]

/-- C13: appending a vector pushes exactly one element after the elements already there, an
`ARRAY` of the length of the vector whose `i`-th element is the value of the `i`-th entry
(`NUMBER` of an int, `STRING` of the escaped text of a string), the empty `ARRAY` for an
empty vector; the result is that of `JARRBEG`, the entries appended in order, `JARREND`. -/
theorem C13_vector_is_array (r : JBASE_t) :
    (∀ xs : List Int,
      ∃ arr : List JLEAF_t,
        (comma_vector_int r xs).root = r.root ++ [.ARRAY arr] ∧ arr.length = xs.length ∧
        (∀ i : Nat, arr[i]? = xs[i]?.map JLEAF_t.NUMBER) ∧
        chain r ([.JARRBEG] ++ xs.map Op.int ++ [.JARREND]) = .ok (comma_vector_int r xs)) ∧
    (∀ xs : List Str,
      ∃ arr : List JLEAF_t,
        (comma_vector_string r xs).root = r.root ++ [.ARRAY arr] ∧ arr.length = xs.length ∧
        (∀ i : Nat, arr[i]? = xs[i]?.map (fun s => .STRING (JBASE_t.escapeString s))) ∧
        chain r ([.JARRBEG] ++ xs.map Op.string ++ [.JARREND]) =
          .ok (comma_vector_string r xs)) ∧
    (comma_vector_int r []).root = r.root ++ [.ARRAY []] ∧
    (comma_vector_string r []).root = r.root ++ [.ARRAY []] := by
  refine ⟨?_, ?_, rfl, rfl⟩
  · intro xs
    refine ⟨xs.map JLEAF_t.of_int, rfl, by simp, fun i => ?_, ?_⟩
    · simp [List.getElem?_map]
      rfl
    · apply chain_bracketed r _ _ (fun pre => chain_map_int pre xs)
      intro x hx
      obtain ⟨i, _, hi⟩ := List.mem_map.1 hx
      rw [← hi]
      simp [JLEAF_t.of_int, JLEAF_t.typ]
  · intro xs
    refine ⟨xs.map (fun s => .STRING (JBASE_t.escapeString s)), rfl, by simp, fun i => ?_, ?_⟩
    · simp [List.getElem?_map]
    · apply chain_bracketed r _ _ (fun pre => chain_map_string pre xs)
      intro x hx
      obtain ⟨i, _, hi⟩ := List.mem_map.1 hx
      rw [← hi]
      simp [JLEAF_t.typ]

/-! ## reduction is local -/

theorem example_doc_inline_eq : example_doc_inline = .ok ⟨[example_value]⟩ := rfl

/-- C15: for every builder `a`, whatever it holds, and every tree `t`, the chain that
linearises `t` run on `a` succeeds and yields `a`'s sequence followed by the one value that
the same chain yields on an empty builder; so splicing the separately built result `b` into
`a` gives the sequence of the chain run on `a`.  In `example.cc`, the chain with `blob`
spliced in and the chain with the operators of `blob` in place give the same builder. -/
theorem C15_reduction_is_local :
    (∀ (a : JBASE_t) (t : JTree),
      chain a (linearise t) = .ok ⟨a.root ++ [valueOf t]⟩ ∧
      chain JBASE_t.empty (linearise t) = .ok ⟨[valueOf t]⟩) ∧
    (∀ (a b : JBASE_t) (t : JTree),
      chain JBASE_t.empty (linearise t) = .ok b → chain a (linearise t) = .ok (comma_JBASE a b)) ∧
    (∃ blob : JBASE_t, example_blob = .ok blob ∧ example_doc blob = example_doc_inline) := by
  have h0 : ∀ t : JTree, chain JBASE_t.empty (linearise t) = .ok ⟨[valueOf t]⟩ := by
    intro t
    have := chain_linearise t []
    simpa [JBASE_t.empty] using this
  refine ⟨fun a t => ⟨chain_linearise t a.root, h0 t⟩, ?_, ⟨_, example_blob_eq, ?_⟩⟩
  · intro a b t hb
    rw [h0 t] at hb
    cases hb
    exact chain_linearise t a.root
  · rw [example_doc_eq, example_doc_inline_eq]

/-- C15 on the builder `[ObjBegin, "k", ArrBegin]` and the tree `[1]`. -/
theorem C15_reduction_is_local_witness :
    chain JBASE_t.empty (linearise (.arr [.int 1])) = .ok ⟨[.ARRAY [.NUMBER 1]]⟩ ∧
    chain ⟨[.OBJBEG, .STRING [0x6b], .ARRBEG]⟩ (linearise (.arr [.int 1])) =
      .ok (comma_JBASE ⟨[.OBJBEG, .STRING [0x6b], .ARRBEG]⟩ ⟨[.ARRAY [.NUMBER 1]]⟩) :=
  ⟨rfl, C15_reduction_is_local.2.1 ⟨[.OBJBEG, .STRING [0x6b], .ARRBEG]⟩ ⟨[.ARRAY [.NUMBER 1]]⟩
    (.arr [.int 1]) rfl⟩

/-! ## when the close of an object succeeds -/

theorem last_split (t : typ_t) (root : List JLEAF_t) (h : ∃ x ∈ root, x.typ = t) :
    ∃ pre m tail, root = pre ++ m :: tail ∧ m.typ = t ∧ ∀ x ∈ tail, x.typ ≠ t := by
  induction root with
  | nil =>
    obtain ⟨x, hx, _⟩ := h
    cases hx
  | cons a rest ih =>
    by_cases hrest : ∃ x ∈ rest, x.typ = t
    · obtain ⟨pre, m, tail, h1, h2, h3⟩ := ih hrest
      exact ⟨a :: pre, m, tail, by rw [h1]; rfl, h2, h3⟩
    · obtain ⟨x, hx, hxt⟩ := h
      rcases List.mem_cons.1 hx with hxa | hxr
      · exact ⟨[], a, rest, rfl, hxa ▸ hxt, fun y hy hyt => hrest ⟨y, hy, hyt⟩⟩
      · exact absurd ⟨x, hxr, hxt⟩ hrest

theorem typ_OBJBEG (m : JLEAF_t) (h : m.typ = .OBJBEG) : m = .OBJBEG := by
  cases m <;> first | rfl | (simp [JLEAF_t.typ] at h)

theorem typ_ARRBEG (m : JLEAF_t) (h : m.typ = .ARRBEG) : m = .ARRBEG := by
  cases m <;> first | rfl | (simp [JLEAF_t.typ] at h)

theorem typ_STRING (m : JLEAF_t) (h : m.typ = .STRING) : ∃ s, m = .STRING s := by
  cases m <;> first | exact ⟨_, rfl⟩ | (simp [JLEAF_t.typ] at h)

/-- The close of an object on `pre ++ [OBJBEG] ++ tail`, nothing in `tail` being an object
marker: the outcome is that of the pairing loop on `tail`. -/
theorem comma_JOBJEND_split (pre tail : List JLEAF_t) (h : ∀ x ∈ tail, x.typ ≠ .OBJBEG) :
    comma_JOBJEND ⟨pre ++ .OBJBEG :: tail⟩ =
      match pairLoop tail [] with
      | .error e => .error e
      | .ok v => .ok ⟨pre ++ [.OBJECT v]⟩ := by
  have hw := walkback_last pre tail .OBJBEG .OBJBEG rfl h
  have hlen : (pre ++ JLEAF_t.OBJBEG :: tail).length ≠ 0 := by simp
  unfold comma_JOBJEND
  have ht : ¬ (some (JLEAF_t.OBJBEG).typ ≠ some typ_t.OBJBEG) := by simp [JLEAF_t.typ]
  simp only [if_neg hlen, hw, typAt_marker, drop_marker, if_neg ht]
  cases pairLoop tail [] with
  | error e => rfl
  | ok v => simp only [set_take_marker]

theorem pairLoop_not_string (x : JLEAF_t) (rest v : List JLEAF_t) (h : x.typ ≠ .STRING) :
    pairLoop (x :: rest) v = .error .assertString := by
  cases x <;> first | rfl | exact absurd rfl h

theorem stringAtEven_cons_cons (s : Str) (y : JLEAF_t) (rest : List JLEAF_t) :
    stringAtEven (.STRING s :: y :: rest) ↔ stringAtEven rest := by
  constructor
  · intro h i x hi hx
    exact h (i + 2) x (by omega) (by simpa using hx)
  · intro h i x hi hx
    match i, hi, hx with
    | 0, _, hx =>
      simp at hx
      rw [← hx]
      rfl
    | 1, hi, _ => omega
    | i + 2, hi, hx => exact h i x (by omega) (by simpa using hx)

/-- The three outcomes of the pairing loop on a run: it pairs the run when the run has even
length and a `STRING` at every key position; it fails its `assert` when some key position
holds something else; it reads past the end when the length is odd and the key positions all
hold `STRING`s. -/
theorem pairLoop_classify : (tail acc : List JLEAF_t) →
    (stringAtEven tail ∧ tail.length % 2 = 0 ∧ ∃ v, pairLoop tail acc = .ok v) ∨
    (keyNotString tail ∧ pairLoop tail acc = .error .assertString) ∨
    (stringAtEven tail ∧ tail.length % 2 = 1 ∧ pairLoop tail acc = .error .outOfBounds)
  | [], acc => Or.inl ⟨fun i x _ hx => by simp at hx, rfl, acc, rfl⟩
  | [x], acc => by
    by_cases hx : x.typ = .STRING
    · obtain ⟨s, rfl⟩ := typ_STRING x hx
      refine Or.inr (Or.inr ⟨?_, rfl, rfl⟩)
      intro i y hi hy
      match i, hi, hy with
      | 0, _, hy =>
        simp at hy
        rw [← hy]
        rfl
      | i + 1, _, hy => simp at hy
    · exact Or.inr (Or.inl ⟨⟨0, x, rfl, rfl, hx⟩, pairLoop_not_string x [] acc hx⟩)
  | x :: y :: rest, acc => by
    by_cases hx : x.typ = .STRING
    · obtain ⟨s, rfl⟩ := typ_STRING x hx
      have heq : pairLoop (.STRING s :: y :: rest) acc = pairLoop rest (acc ++ [.PAIR s y]) := by
        rw [pairLoop]
      have hlen : (JLEAF_t.STRING s :: y :: rest).length % 2 = rest.length % 2 := by
        simp only [List.length_cons]
        omega
      rw [heq, hlen, stringAtEven_cons_cons]
      rcases pairLoop_classify rest (acc ++ [.PAIR s y]) with h | ⟨⟨i, z, hi, hz, hzt⟩, h⟩ | h
      · exact Or.inl h
      · exact Or.inr (Or.inl ⟨⟨i + 2, z, by omega, by simpa using hz, hzt⟩, h⟩)
      · exact Or.inr (Or.inr h)
    · exact Or.inr (Or.inl ⟨⟨0, x, rfl, rfl, hx⟩, pairLoop_not_string x _ acc hx⟩)

theorem comma_JOBJEND_empty : comma_JOBJEND ⟨[]⟩ = .error .assertSize := rfl

theorem comma_JARREND_empty : comma_JARREND ⟨[]⟩ = .error .assertSize := rfl

/-- A close of an object that returns has found an object marker. -/
theorem comma_JOBJEND_ok_split (r b : JBASE_t) (h : comma_JOBJEND r = .ok b) :
    ∃ pre tail, r.root = pre ++ .OBJBEG :: tail ∧ (∀ x ∈ tail, x.typ ≠ .OBJBEG) ∧
      ∃ v, pairLoop tail [] = .ok v ∧ b = ⟨pre ++ [.OBJECT v]⟩ := by
  obtain ⟨root⟩ := r
  by_cases hm : ∃ x ∈ root, x.typ = .OBJBEG
  · obtain ⟨pre, m, tail, h1, h2, h3⟩ := last_split .OBJBEG root hm
    rw [typ_OBJBEG m h2] at h1
    subst h1
    rw [comma_JOBJEND_split pre tail h3] at h
    cases hp : pairLoop tail [] with
    | error e => rw [hp] at h; cases h
    | ok v =>
      rw [hp] at h
      exact ⟨pre, tail, rfl, h3, v, hp, by cases h; rfl⟩
  · have hno : ∀ x ∈ root, x.typ ≠ .OBJBEG := fun x hx hxt => hm ⟨x, hx, hxt⟩
    cases root with
    | nil => rw [comma_JOBJEND_empty] at h; cases h
    | cons a rest =>
      rw [comma_JOBJEND_no_marker _ (List.cons_ne_nil _ _) hno] at h
      cases h

/-- A close of an array that returns has found an array marker. -/
theorem comma_JARREND_ok_split (r b : JBASE_t) (h : comma_JARREND r = .ok b) :
    ∃ pre tail, r.root = pre ++ .ARRBEG :: tail ∧ (∀ x ∈ tail, x.typ ≠ .ARRBEG) ∧
      b = ⟨pre ++ [.ARRAY tail]⟩ := by
  obtain ⟨root⟩ := r
  by_cases hm : ∃ x ∈ root, x.typ = .ARRBEG
  · obtain ⟨pre, m, tail, h1, h2, h3⟩ := last_split .ARRBEG root hm
    rw [typ_ARRBEG m h2] at h1
    subst h1
    rw [comma_JARREND_tail pre tail h3] at h
    exact ⟨pre, tail, rfl, h3, by cases h; rfl⟩
  · have hno : ∀ x ∈ root, x.typ ≠ .ARRBEG := fun x hx hxt => hm ⟨x, hx, hxt⟩
    cases root with
    | nil => rw [comma_JARREND_empty] at h; cases h
    | cons a rest =>
      rw [comma_JARREND_no_marker _ (List.cons_ne_nil _ _) hno] at h
      cases h

/-! ## the close of an object on a last key without a value -/

theorem pairLoopReading_not_string (past x : JLEAF_t) (rest v : List JLEAF_t)
    (h : x.typ ≠ .STRING) : pairLoopReading past (x :: rest) v = .error .assertString := by
  cases x <;> first | rfl | exact absurd rfl h

/-- The loop that stops at the read past the end is the loop of the program on every run on
which it does not stop there. -/
theorem pairLoopReading_eq (past : JLEAF_t) : (tail acc : List JLEAF_t) →
    pairLoop tail acc ≠ .error .outOfBounds → pairLoopReading past tail acc = pairLoop tail acc
  | [], _, _ => rfl
  | [x], acc, h => by
    by_cases hx : x.typ = .STRING
    · obtain ⟨s, rfl⟩ := typ_STRING x hx
      exact absurd rfl h
    · rw [pairLoopReading_not_string past x [] acc hx, pairLoop_not_string x [] acc hx]
  | x :: y :: rest, acc, h => by
    by_cases hx : x.typ = .STRING
    · obtain ⟨s, rfl⟩ := typ_STRING x hx
      rw [pairLoop] at h ⊢
      rw [pairLoopReading]
      exact pairLoopReading_eq past rest _ h
    · rw [pairLoopReading_not_string past x _ acc hx, pairLoop_not_string x _ acc hx]

/-- Where the loop of the embedding stops at the read past the end, the loop of the program
returns: it has paired the last key with what it read. -/
theorem pairLoopReading_past (past : JLEAF_t) : (tail acc : List JLEAF_t) →
    pairLoop tail acc = .error .outOfBounds →
    ∃ (v : List JLEAF_t) (s : Str), pairLoopReading past tail acc = .ok (v ++ [.PAIR s past])
  | [], _, h => by cases h
  | [x], acc, h => by
    by_cases hx : x.typ = .STRING
    · obtain ⟨s, rfl⟩ := typ_STRING x hx
      exact ⟨acc, s, rfl⟩
    · rw [pairLoop_not_string x [] acc hx] at h
      cases h
  | x :: y :: rest, acc, h => by
    by_cases hx : x.typ = .STRING
    · obtain ⟨s, rfl⟩ := typ_STRING x hx
      rw [pairLoop] at h
      rw [pairLoopReading]
      exact pairLoopReading_past past rest _ h
    · rw [pairLoop_not_string x _ acc hx] at h
      cases h

/-- The close of an object of the embedding is the close of the program on every run that
does not reach the read past the end. -/
theorem comma_JOBJEND_reading_eq (past : JLEAF_t) (r : JBASE_t)
    (h : comma_JOBJEND r ≠ .error .outOfBounds) :
    comma_JOBJEND_reading past r = comma_JOBJEND r := by
  unfold comma_JOBJEND at h ⊢
  unfold comma_JOBJEND_reading
  by_cases hsize : r.root.length = 0
  · simp only [if_pos hsize]
  · simp only [if_neg hsize] at h ⊢
    split
    · rfl
    · rename_i hfound
      simp only [if_neg hfound] at h
      have hp : pairLoop (r.root.drop (walkback r.root .OBJBEG (r.root.length - 1) + 1)) [] ≠
          .error .outOfBounds := by
        intro hc
        rw [hc] at h
        exact h rfl
      rw [pairLoopReading_eq past _ _ hp]

/-- On every run that reaches the read past the end, the close of the program returns a
builder. -/
theorem comma_JOBJEND_reading_past (past : JLEAF_t) (r : JBASE_t)
    (h : comma_JOBJEND r = .error .outOfBounds) :
    ∃ b, comma_JOBJEND_reading past r = .ok b := by
  unfold comma_JOBJEND at h
  unfold comma_JOBJEND_reading
  by_cases hsize : r.root.length = 0
  · simp only [if_pos hsize] at h
    cases h
  · simp only [if_neg hsize] at h ⊢
    split at h
    · cases h
    · rename_i hfound
      simp only [if_neg hfound]
      cases hp : pairLoop (r.root.drop (walkback r.root .OBJBEG (r.root.length - 1) + 1)) []
        with
      | ok v =>
        rw [hp] at h
        cases h
      | error e =>
        rw [hp] at h
        have he : e = .outOfBounds := by cases h; rfl
        rw [he] at hp
        obtain ⟨v, s, hv⟩ := pairLoopReading_past past _ _ hp
        rw [hv]
        exact ⟨_, rfl⟩

/-- C14, the failing input `(JOBJBEG, "a", JARRBEG, "b", JOBJEND)`: the close of the object
runs on `[ObjBegin, "a", ArrBegin, "b"]`, of size 4, whose run after the marker has odd
length with `STRING`s at the key positions.  The key `b` is at index 3 and its value is read
at index 4, which is no element of the sequence; nothing guards that read, and the close
returns an `OBJECT` whose second pair holds what the read found (`past`), serialised like any
other, where the claim has the close fail and produce no object. -/
theorem C14_odd_run_reads_past_end (past : JLEAF_t) :
    chain JOBJBEG [.string [97], .JARRBEG, .string [98]] =
      .ok ⟨[.OBJBEG, .STRING [97], .ARRBEG, .STRING [98]]⟩ ∧
    typAt [.OBJBEG, .STRING [97], .ARRBEG, .STRING [98]] 3 = some .STRING ∧
    ([.OBJBEG, .STRING [97], .ARRBEG, .STRING [98]] : List JLEAF_t)[3 + 1]? = none ∧
    comma_JOBJEND_reading past ⟨[.OBJBEG, .STRING [97], .ARRBEG, .STRING [98]]⟩ =
      .ok ⟨[.OBJECT [.PAIR [97] .ARRBEG, .PAIR [98] past]]⟩ ∧
    (∀ fmt : Double → Str,
      JBASE_t.toString fmt ⟨[.OBJECT [.PAIR [97] .ARRBEG, .PAIR [98] past]]⟩ =
        .ok (str "\x7b\"a\":#ARRBEG#,\"b\":" ++ past.toString fmt ++ str "\x7d")) := by
  refine ⟨rfl, rfl, rfl, rfl, fun fmt => ?_⟩
  simp only [JBASE_t.toString, toString_OBJECT, toString_PAIR, List.map, commaJoin,
    List.intercalate, List.intersperse, List.flatten, List.append_assoc, List.append_nil]
  rfl

/-! ## how a chain fails -/

theorem chain_error_split (r : JBASE_t) (ops : List Op) (e : Failure)
    (h : chain r ops = .error e) :
    ∃ done op rest r1, ops = done ++ op :: rest ∧ chain r done = .ok r1 ∧
      comma r1 op = .error e := by
  induction ops generalizing r with
  | nil => cases h
  | cons x xs ih =>
    cases hx : comma r x with
    | error e1 =>
      simp only [chain, hx] at h
      cases h
      exact ⟨[], x, xs, r, rfl, rfl, hx⟩
    | ok r1 =>
      simp only [chain, hx] at h
      obtain ⟨done, op, rest, r2, h1, h2, h3⟩ := ih r1 h
      refine ⟨x :: done, op, rest, r2, by rw [h1]; rfl, ?_, h3⟩
      simp only [chain, hx, h2]

theorem comma_error (r : JBASE_t) (op : Op) (e : Failure) (h : comma r op = .error e) :
    (op = .JOBJEND ∧ comma_JOBJEND r = .error e) ∨
    (op = .JARREND ∧ comma_JARREND r = .error e) := by
  cases op <;> first | exact Or.inl ⟨rfl, h⟩ | exact Or.inr ⟨rfl, h⟩ | cases h

/-- The ways in which the close of an object fails. -/
theorem comma_JOBJEND_error (r : JBASE_t) (e : Failure) (h : comma_JOBJEND r = .error e) :
    ((∀ x ∈ r.root, x.typ ≠ .OBJBEG) ∧ (e = .assertSize ∨ e = .markerNotFound r.root)) ∨
    (∃ pre tail, r.root = pre ++ [.OBJBEG] ++ tail ∧ (∀ x ∈ tail, x.typ ≠ .OBJBEG) ∧
      ((keyNotString tail ∧ e = .assertString) ∨
        (stringAtEven tail ∧ tail.length % 2 = 1 ∧ e = .outOfBounds))) := by
  obtain ⟨root⟩ := r
  by_cases hm : ∃ x ∈ root, x.typ = .OBJBEG
  · obtain ⟨pre, m, tail, h1, h2, h3⟩ := last_split .OBJBEG root hm
    rw [typ_OBJBEG m h2] at h1
    subst h1
    rw [comma_JOBJEND_split pre tail h3] at h
    refine Or.inr ⟨pre, tail, by simp, h3, ?_⟩
    rcases pairLoop_classify tail [] with ⟨_, _, v, hv⟩ | ⟨hk, hv⟩ | ⟨hs, ho, hv⟩
    · rw [hv] at h
      cases h
    · rw [hv] at h
      cases h
      exact Or.inl ⟨hk, rfl⟩
    · rw [hv] at h
      cases h
      exact Or.inr ⟨hs, ho, rfl⟩
  · have hno : ∀ x ∈ root, x.typ ≠ .OBJBEG := fun x hx hxt => hm ⟨x, hx, hxt⟩
    refine Or.inl ⟨hno, ?_⟩
    cases root with
    | nil =>
      rw [comma_JOBJEND_empty] at h
      cases h
      exact Or.inl rfl
    | cons a rest =>
      rw [comma_JOBJEND_no_marker _ (List.cons_ne_nil _ _) hno] at h
      cases h
      exact Or.inr rfl

/-- The ways in which the close of an array fails. -/
theorem comma_JARREND_error (r : JBASE_t) (e : Failure) (h : comma_JARREND r = .error e) :
    (∀ x ∈ r.root, x.typ ≠ .ARRBEG) ∧ (e = .assertSize ∨ e = .markerNotFound r.root) := by
  obtain ⟨root⟩ := r
  by_cases hm : ∃ x ∈ root, x.typ = .ARRBEG
  · obtain ⟨pre, m, tail, h1, h2, h3⟩ := last_split .ARRBEG root hm
    rw [typ_ARRBEG m h2] at h1
    subst h1
    rw [comma_JARREND_tail pre tail h3] at h
    cases h
  · have hno : ∀ x ∈ root, x.typ ≠ .ARRBEG := fun x hx hxt => hm ⟨x, hx, hxt⟩
    refine ⟨hno, ?_⟩
    cases root with
    | nil =>
      rw [comma_JARREND_empty] at h
      cases h
      exact Or.inl rfl
    | cons a rest =>
      rw [comma_JARREND_no_marker _ (List.cons_ne_nil _ _) hno] at h
      cases h
      exact Or.inr rfl

/-- C17, as stated, fails on `JOBJBEG, JARRBEG, JOBJEND`, whose opens and closes are not
properly nested: the close finds its marker (the sequence is `[ObjBegin, ArrBegin]`) and
fails the `assert` on the key, which is neither a missing marker nor a success. -/
theorem C17_misnested_key_assert :
    properlyNested [.JOBJBEG, .JARRBEG, .JOBJEND] = false ∧
    chain JBASE_t.empty [.JOBJBEG, .JARRBEG] = .ok ⟨[.OBJBEG, .ARRBEG]⟩ ∧
    chain JBASE_t.empty [.JOBJBEG, .JARRBEG, .JOBJEND] = .error .assertString :=
  ⟨rfl, rfl, rfl⟩

/-- C17, amended: a run of operators on an empty builder, with its opens and closes properly
nested or not, that does not read past the end of the sequence in a pairing loop ends in one
of three ways: every operator succeeds; or a close fails because the sequence holds no begin
marker of its kind; or a close of an object finds its marker and fails the `assert` that a
key position holds a `STRING`. -/
theorem C17_misnested_run_outcomes (ops : List Op)
    (hoob : chain JBASE_t.empty ops ≠ .error .outOfBounds) : RunOutcome ops := by
  unfold RunOutcome
  cases hc : chain JBASE_t.empty ops with
  | ok b => exact Or.inl ⟨b, rfl⟩
  | error e =>
    right
    obtain ⟨done, op, rest, r, h1, h2, h3⟩ := chain_error_split _ _ _ hc
    refine ⟨done, rest, r, h2, ?_⟩
    rcases comma_error r op e h3 with ⟨hop, hj⟩ | ⟨hop, hj⟩
    · subst hop
      rcases comma_JOBJEND_error r e hj with ⟨hno, he⟩ | ⟨pre, tail, hr, ht, hk⟩
      · refine Or.inl ⟨h1, hno, ?_⟩
        rcases he with he | he
        · exact Or.inl (by rw [he])
        · exact Or.inr (by rw [he])
      · rcases hk with ⟨hk, he⟩ | ⟨_, _, he⟩
        · exact Or.inr (Or.inr ⟨h1, by rw [he], pre, tail, hr, ht, hk⟩)
        · rw [hc, he] at hoob
          exact absurd rfl hoob
    · subst hop
      obtain ⟨hno, he⟩ := comma_JARREND_error r e hj
      refine Or.inr (Or.inl ⟨h1, hno, ?_⟩)
      rcases he with he | he
      · exact Or.inl (by rw [he])
      · exact Or.inr (by rw [he])

/-- C17, amended, on `JOBJBEG, JARRBEG, JOBJEND`, whose opens and closes are not properly
nested. -/
theorem C17_misnested_run_outcomes_witness :
    chain JBASE_t.empty [.JOBJBEG, .JARRBEG, .JOBJEND] ≠ .error .outOfBounds ∧
    RunOutcome [.JOBJBEG, .JARRBEG, .JOBJEND] :=
  ⟨fun h => Failure.noConfusion (Except.error.inj h),
    C17_misnested_run_outcomes [.JOBJBEG, .JARRBEG, .JOBJEND]
      (fun h => Failure.noConfusion (Except.error.inj h))⟩

/-! ## pairs occur in objects only -/

theorem pairFreeAll_append (a b : List JLEAF_t) :
    pairFreeAll (a ++ b) = (pairFreeAll a && pairFreeAll b) := by
  induction a with
  | nil => simp [pairFreeAll]
  | cons x xs ih => simp [pairFreeAll, ih, Bool.and_assoc]

theorem pairsOnly_append (a b : List JLEAF_t) :
    pairsOnly (a ++ b) = (pairsOnly a && pairsOnly b) := by
  induction a with
  | nil => simp [pairsOnly]
  | cons x xs ih => simp [pairsOnly, ih, Bool.and_assoc]

theorem pairFreeAll_push (root : List JLEAF_t) (x : JLEAF_t) (h : pairFreeAll root = true)
    (hx : pairFree x = true) : pairFreeAll (root ++ [x]) = true := by
  simp [pairFreeAll_append, pairFreeAll, h, hx]

theorem pairFreeAll_map {α : Type} (f : α → JLEAF_t) (hf : ∀ a, pairFree (f a) = true)
    (xs : List α) : pairFreeAll (xs.map f) = true := by
  induction xs with
  | nil => rfl
  | cons x xs ih => simp [pairFreeAll, hf x, ih]

theorem pairFree_of_unsigned (n : Nat) : pairFree (JLEAF_t.of_unsigned n) = true := by
  unfold JLEAF_t.of_unsigned
  split <;> rfl

theorem pairFree_of_uint64 (n : Nat) : pairFree (JLEAF_t.of_uint64 n) = true := by
  unfold JLEAF_t.of_uint64
  split <;> rfl

theorem pairFreeAll_mem (root : List JLEAF_t) (h : pairFreeAll root = true) :
    ∀ x ∈ root, pairFree x = true := by
  induction root with
  | nil => intro x hx; cases hx
  | cons a rest ih =>
    simp only [pairFreeAll, Bool.and_eq_true] at h
    intro x hx
    rcases List.mem_cons.1 hx with hxa | hxr
    · rw [hxa]; exact h.1
    · exact ih h.2 x hxr

theorem pairFree_typ (x : JLEAF_t) (h : pairFree x = true) : x.typ ≠ .PAIR := by
  cases x <;> simp [JLEAF_t.typ, pairFree] at h ⊢

/-- The pairing loop on elements that are not pairs pushes pairs whose values are not
pairs. -/
theorem pairLoop_pairsOnly : (tail acc v : List JLEAF_t) → pairFreeAll tail = true →
    pairsOnly acc = true → pairLoop tail acc = .ok v → pairsOnly v = true
  | [], acc, v, _, hacc, h => by
    simp only [pairLoop] at h
    cases h
    exact hacc
  | [x], acc, v, _, _, h => by
    rcases pairLoop_classify [x] acc with ⟨_, hl, _⟩ | ⟨_, he⟩ | ⟨_, _, he⟩
    · simp at hl
    · rw [he] at h; cases h
    · rw [he] at h; cases h
  | x :: y :: rest, acc, v, ht, hacc, h => by
    by_cases hx : x.typ = .STRING
    · obtain ⟨s, rfl⟩ := typ_STRING x hx
      rw [pairLoop] at h
      simp only [pairFreeAll, Bool.and_eq_true] at ht
      refine pairLoop_pairsOnly rest (acc ++ [.PAIR s y]) v ht.2.2 ?_ h
      simp [pairsOnly_append, pairsOnly, pairOfFree, hacc, ht.2.1]
    · rw [pairLoop_not_string x _ acc hx] at h
      cases h

theorem reachable_pairFreeAll (b : JBASE_t) (h : Reachable b) : pairFreeAll b.root = true := by
  induction h with
  | empty => rfl
  | objbeg => rfl
  | objend => rfl
  | arrbeg => rfl
  | arrend => rfl
  | int r rhs _ ih => exact pairFreeAll_push _ _ ih rfl
  | unsigned r rhs _ ih => exact pairFreeAll_push _ _ ih (pairFree_of_unsigned rhs)
  | uint64 r rhs _ ih => exact pairFreeAll_push _ _ ih (pairFree_of_uint64 rhs)
  | double r rhs _ ih => exact pairFreeAll_push _ _ ih rfl
  | string r rhs _ ih => exact pairFreeAll_push _ _ ih rfl
  | vector_int r rhs _ ih =>
    exact pairFreeAll_push _ _ ih (pairFreeAll_map JLEAF_t.of_int (fun _ => rfl) rhs)
  | vector_double r rhs _ ih =>
    exact pairFreeAll_push _ _ ih (pairFreeAll_map JLEAF_t.DOUBLE (fun _ => rfl) rhs)
  | vector_string r rhs _ ih =>
    exact pairFreeAll_push _ _ ih
      (pairFreeAll_map (fun s => JLEAF_t.STRING (JBASE_t.escapeString s)) (fun _ => rfl) rhs)
  | blob r rhs _ _ ih1 ih2 =>
    simp [comma_JBASE, pairFreeAll_append, ih1, ih2]
  | open_object r _ ih => exact pairFreeAll_push _ _ ih rfl
  | open_array r _ ih => exact pairFreeAll_push _ _ ih rfl
  | close_object r b _ hb ih =>
    obtain ⟨pre, tail, h1, _, v, hv, h2⟩ := comma_JOBJEND_ok_split r b hb
    rw [h1, pairFreeAll_append] at ih
    simp only [pairFreeAll, Bool.and_eq_true] at ih
    have hp := pairLoop_pairsOnly tail [] v ih.2.2 rfl hv
    rw [h2]
    exact pairFreeAll_push _ _ ih.1 hp
  | close_array r b _ hb ih =>
    obtain ⟨pre, tail, h1, _, h2⟩ := comma_JARREND_ok_split r b hb
    rw [h1, pairFreeAll_append] at ih
    simp only [pairFreeAll, Bool.and_eq_true] at ih
    rw [h2]
    exact pairFreeAll_push _ _ ih.1 ih.2.2

/-- C16: in every builder that the public operations reach, no element of `root` is a
`PAIR`, and at every depth the elements of an `OBJECT` are `PAIR`s while no element of an
`ARRAY` and no value of a `PAIR` is a `PAIR`. -/
theorem C16_pairs_only_in_objects (b : JBASE_t) (h : Reachable b) :
    pairFreeAll b.root = true ∧ (∀ x ∈ b.root, x.typ ≠ .PAIR) ∧
    (∀ v : List JLEAF_t, JLEAF_t.OBJECT v ∈ b.root → pairsOnly v = true) ∧
    (∀ v : List JLEAF_t, JLEAF_t.ARRAY v ∈ b.root → pairFreeAll v = true) := by
  have hall := reachable_pairFreeAll b h
  have hmem := pairFreeAll_mem b.root hall
  refine ⟨hall, fun x hx => pairFree_typ x (hmem x hx), fun v hv => ?_, fun v hv => ?_⟩
  · have := hmem _ hv
    simpa [pairFree] using this
  · have := hmem _ hv
    simpa [pairFree] using this

/-- C16 on the builder of `(JOBJBEG, "k", JARRBEG, 1, JARREND, JOBJEND)`. -/
theorem C16_pairs_only_in_objects_witness :
    Reachable ⟨[.OBJECT [.PAIR [0x6b] (.ARRAY [.NUMBER 1])]]⟩ ∧
    pairFreeAll (JBASE_t.mk [.OBJECT [.PAIR [0x6b] (.ARRAY [.NUMBER 1])]]).root = true :=
  have hr : Reachable ⟨[.OBJECT [.PAIR [0x6b] (.ARRAY [.NUMBER 1])]]⟩ :=
    .close_object ⟨[.OBJBEG, .STRING [0x6b], .ARRAY [.NUMBER 1]]⟩ _
      (.close_array ⟨[.OBJBEG, .STRING [0x6b], .ARRBEG, .NUMBER 1]⟩ _
        (.int _ 1 (.open_array _ (.string _ [0x6b] .objbeg))) rfl)
      rfl
  ⟨hr, (C16_pairs_only_in_objects _ hr).1⟩
